import Mathlib

/-!
# The gopher translator: word rewriting, sentence handling and the history log

A shallow embedding of `translator.go`.

* A Go `string` is a sequence of bytes; it is modelled as a list of byte values.
  Indexing and slicing are byte-wise and checked, as in Go: an out-of-range
  slice or index is a run-time panic, modelled by `Except.error`.
* `for i, letter := range word` decodes UTF-8; the decoder is modelled.
* The functions of package `strings` whose result depends on the Unicode tables
  (`ToLower`, `TrimSpace`, `Title`) are a parameter `GoStrings` of the program;
  `asciiStrings` is the instance that agrees with Go on ASCII-only text.
  `mapTitle` is `strings.Title` as package `strings` defines it on top of
  `strings.Map`, given the separator test and `unicode.ToTitle`.
* The history file is explicit state: `none` when the file is absent, `some c`
  when it is a regular file with content `c`.  I/O errors are outside the model.
-/

namespace Translator

/-! ## Go strings, slices and panics -/

/-- A Go string: its bytes. -/
abbrev GoString := List Nat

/-- Run-time panics the program can raise. -/
inductive Panic where
  | sliceBounds
  | indexRange
  deriving DecidableEq, Repr

deriving instance DecidableEq for Except

/-- The replacement rune U+FFFD (`utf8.RuneError`). -/
def RuneError : Nat := 0xFFFD

/-- The conversion `string(r)` of a rune: its UTF-8 encoding, the encoding of
U+FFFD for a surrogate or a value above U+10FFFF. -/
def runeString (r : Nat) : GoString :=
  if r < 0x80 then [r]
  else if r < 0x800 then [0xC0 + r / 64, 0x80 + r % 64]
  else if (0xD800 ≤ r ∧ r ≤ 0xDFFF) ∨ 0x10FFFF < r then [0xEF, 0xBF, 0xBD]
  else if r < 0x10000 then [0xE0 + r / 4096, 0x80 + r / 64 % 64, 0x80 + r % 64]
  else [0xF0 + r / 262144, 0x80 + r / 4096 % 64, 0x80 + r / 64 % 64, 0x80 + r % 64]

/-- A string constant of the source, as its UTF-8 bytes. -/
def lit (s : String) : GoString :=
  s.data.flatMap (fun c => runeString c.toNat)

/-- The Go slice expression `s[lo:hi]` on a string: panics unless
`0 ≤ lo ≤ hi ≤ len(s)`. -/
def slice (s : GoString) (lo hi : Int) : Except Panic GoString :=
  if 0 ≤ lo ∧ lo ≤ hi ∧ hi ≤ (s.length : Int) then
    .ok ((s.take hi.toNat).drop lo.toNat)
  else .error .sliceBounds

/-- The Go slice expression `s[lo:]`. -/
def sliceFrom (s : GoString) (lo : Int) : Except Panic GoString :=
  slice s lo s.length

/-- The Go slice expression `s[:hi]`. -/
def sliceTo (s : GoString) (hi : Int) : Except Panic GoString :=
  slice s 0 hi

/-- The Go index expression `xs[i]` on a slice of strings: panics unless
`0 ≤ i < len(xs)`. -/
def index (xs : List GoString) (i : Nat) : Except Panic GoString :=
  match xs.get? i with
  | some x => .ok x
  | none => .error .indexRange

/-! ## UTF-8 decoding, as performed by `range` over a string -/

/-- The rune and width that `utf8.DecodeRuneInString` yields at the start of
a string: a malformed or truncated sequence yields `(RuneError, 1)`. The masks
and shifts of the decoder are written with `%` and `*`. -/
def decodeRune : GoString → Nat × Nat
  | [] => (RuneError, 0)
  | s0 :: rest =>
    if s0 < 0x80 then (s0, 1)
    else if s0 < 0xC2 then (RuneError, 1)
    else if s0 < 0xE0 then
      match rest with
      | s1 :: _ =>
        if 0x80 ≤ s1 ∧ s1 ≤ 0xBF then (s0 % 32 * 64 + s1 % 64, 2) else (RuneError, 1)
      | [] => (RuneError, 1)
    else if s0 < 0xF0 then
      match rest with
      | s1 :: s2 :: _ =>
        if (if s0 = 0xE0 then 0xA0 else 0x80) ≤ s1 ∧ s1 ≤ (if s0 = 0xED then 0x9F else 0xBF)
            ∧ 0x80 ≤ s2 ∧ s2 ≤ 0xBF then
          (s0 % 16 * 4096 + s1 % 64 * 64 + s2 % 64, 3)
        else (RuneError, 1)
      | _ => (RuneError, 1)
    else if s0 < 0xF5 then
      match rest with
      | s1 :: s2 :: s3 :: _ =>
        if (if s0 = 0xF0 then 0x90 else 0x80) ≤ s1 ∧ s1 ≤ (if s0 = 0xF4 then 0x8F else 0xBF)
            ∧ 0x80 ≤ s2 ∧ s2 ≤ 0xBF ∧ 0x80 ≤ s3 ∧ s3 ≤ 0xBF then
          (s0 % 8 * 262144 + s1 % 64 * 4096 + s2 % 64 * 64 + s3 % 64, 4)
        else (RuneError, 1)
      | _ => (RuneError, 1)
    else (RuneError, 1)

/-- The iterations of `for i, letter := range s`, started at byte offset `i`
with `skip` bytes of the current rune still to pass over: the pairs
`(i, letter)` in order. -/
def rangeFrom : GoString → Nat → Nat → List (Int × Nat)
  | [], _, _ => []
  | _ :: bs, skip + 1, i => rangeFrom bs skip (i + 1)
  | b :: bs, 0, i =>
    ((i : Int), (decodeRune (b :: bs)).1) ::
      rangeFrom bs ((decodeRune (b :: bs)).2 - 1) (i + 1)

/-- The iterations of `for i, letter := range s`. -/
def rangeString (s : GoString) : List (Int × Nat) :=
  rangeFrom s 0 0

/-! ## Package `strings` -/

/-- The functions of package `strings` that consult the Unicode tables. -/
structure GoStrings where
  /-- The function `strings.ToLower`. -/
  ToLower : GoString → GoString
  /-- The function `strings.TrimSpace`. -/
  TrimSpace : GoString → GoString
  /-- The function `strings.Title`. -/
  Title : GoString → GoString

/-! ## The transliterator -/

/-- The slice `vowels` of `findVowel`. -/
def vowels : List GoString :=
  [lit "a", lit "e", lit "o", lit "i", lit "u", lit "y"]

/-- The loop of `findVowel` over the iterations of `range word`. -/
def findVowelLoop : List (Int × Nat) → Int × Bool
  | [] => (-1, false)
  | (i, letter) :: rest =>
    if vowels.any (fun vowel => runeString letter == vowel) then (i, true)
    else findVowelLoop rest

/-- The function `findVowel`. -/
def findVowel (word : GoString) : Int × Bool :=
  findVowelLoop (rangeString word)

/-- The function `translate`. -/
def translate (L : GoStrings) (word : GoString) : Except Panic GoString :=
  let word := L.ToLower word
  let vowelPos := (findVowel word).1
  let result := (findVowel word).2
  if !result then .ok word
  else if vowelPos = 0 then .ok (lit "g" ++ word)
  else do
    let p ← slice word 0 2
    if p = lit "xr" then .ok (lit "ge" ++ word)
    else
      let isQu ← (if vowelPos = 2 then do
                    let q ← slice word 1 3
                    pure (decide (q = lit "qu"))
                  else pure false)
      if isQu then do
        let a ← sliceFrom word 3
        let b ← sliceTo word 3
        .ok (a ++ b ++ lit "ogo")
      else do
        let a ← sliceFrom word vowelPos
        let b ← sliceTo word vowelPos
        .ok (a ++ b ++ lit "ogo")

/-! ## Splitting, joining, comparing and sorting -/

/-- The function `strings.Index`: the offset of the first occurrence of
`substr` in `s`, `none` standing for the result `-1`. -/
def Index : GoString → GoString → Option Nat
  | [], substr => if substr.isPrefixOf [] then some 0 else none
  | b :: bs, substr =>
    if substr.isPrefixOf (b :: bs) then some 0 else (Index bs substr).map (· + 1)

/-- The loop of `strings.Split` (`genSplit`) for a non-empty separator: cut at
the first occurrence of `sep`, continue after it. It runs at most once per
occurrence of `sep`, hence at most `fuel = len(s)` times. -/
def splitLoop (sep : GoString) : Nat → GoString → List GoString
  | 0, s => [s]
  | fuel + 1, s =>
    match Index s sep with
    | none => [s]
    | some m => s.take m :: splitLoop sep fuel (s.drop (m + sep.length))

/-- The function `strings.Split`, for a non-empty separator. -/
def Split (s sep : GoString) : List GoString :=
  splitLoop sep s.length s

/-- The function `strings.Join`. -/
def Join : List GoString → GoString → GoString
  | [], _ => []
  | [a], _ => a
  | a :: b :: rest, sep => a ++ sep ++ Join (b :: rest) sep

/-- The comparison `a < b` of two Go strings: byte-wise lexicographic. -/
def strLess : GoString → GoString → Bool
  | _, [] => false
  | [], _ :: _ => true
  | a :: as, b :: bs => if a < b then true else if b < a then false else strLess as bs

/-- The comparison `a <= b` of two Go strings. -/
def strLe (a b : GoString) : Bool :=
  !strLess b a

/-- The inner loop of insertion sort: `x` moves towards the front while it is
less than its predecessor. The sorted part is held last element first. -/
def insertBack (less : GoString → GoString → Bool) (x : GoString) :
    List GoString → List GoString
  | [] => [x]
  | y :: ys => if less x y then y :: insertBack less x ys else x :: y :: ys

/-- The call `sort.Slice(lines, less)`, by insertion sort. The library promises
a permutation that is sorted by `less` and does not promise stability. -/
def sortSlice (less : GoString → GoString → Bool) (lines : List GoString) :
    List GoString :=
  (lines.foldl (fun sorted x => insertBack less x sorted) []).reverse

/-! ## The history log -/

/-- The constant `Delimiter`. -/
def Delimiter : GoString := lit "######"

/-- A Go `map[string]string`, as an association list with distinct keys. -/
abbrev GoMap := List (GoString × GoString)

/-- The assignment `m[k] = v`. -/
def mapSet (m : GoMap) (k v : GoString) : GoMap :=
  match m with
  | [] => [(k, v)]
  | (k1, v1) :: rest => if k1 = k then (k, v) :: rest else (k1, v1) :: mapSet rest k v

/-- The value of `readHistory`, a `map[string][]map[string]string`: empty, or
the one key "history" bound to the slice of entries. -/
abbrev HistoryData := List (GoString × List GoMap)

/-- The function `writeHistory` on the file state: append a newline and the
record to an existing file, create the file with the record otherwise. -/
def writeHistory (file : Option GoString) (record : GoString) : Option GoString :=
  match file with
  | some content => some (content ++ lit "\n" ++ record)
  | none => some record

/-- The body of the loop of `readHistory` for one line: a fresh map in which
`records[0]` is bound to `records[1]`. -/
def historyEntry (line : GoString) : Except Panic GoMap := do
  let records := Split line Delimiter
  let key ← index records 0
  let value ← index records 1
  pure (mapSet [] key value)

/-- The loop of `readHistory` over the sorted lines. -/
def historyEntries : List GoString → Except Panic (List GoMap)
  | [] => .ok []
  | line :: rest => do
    let entry ← historyEntry line
    let entries ← historyEntries rest
    pure (entry :: entries)

/-- The function `readHistory` on the file state. -/
def readHistory (L : GoStrings) (file : Option GoString) : Except Panic HistoryData :=
  match file with
  | none => .ok []
  | some body =>
    let lines := Split body (lit "\n")
    let lines := sortSlice (fun a b => strLess (L.ToLower a) (L.ToLower b)) lines
    do
      let entries ← historyEntries lines
      pure [(lit "history", entries)]

/-! ## The sentence handler -/

/-- The loop of `sentenceHandler` over the words, `i` being the loop index:
every word is translated, the first translation is passed through `Title`. -/
def translateWords (L : GoStrings) : Nat → List GoString → Except Panic (List GoString)
  | _, [] => .ok []
  | i, word :: rest => do
    let t ← translate L word
    let ts ← translateWords L (i + 1) rest
    pure ((if i = 0 then L.Title t else t) :: ts)

/-- The function `sentenceHandler` from the decoded request on: the sentence
sent back and the file state after the history record is written. -/
def sentenceHandler (L : GoStrings) (file : Option GoString) (sentence : GoString) :
    Except Panic (GoString × Option GoString) := do
  let sentence := L.TrimSpace sentence
  let endSign ← sliceFrom sentence ((sentence.length : Int) - 1)
  let body ← sliceTo sentence ((sentence.length : Int) - 1)
  let sentenceWords := Split body (lit " ")
  let translatedWords ← translateWords L 0 sentenceWords
  let translatedSentence := Join translatedWords (lit " ") ++ endSign
  pure (translatedSentence, writeHistory file (sentence ++ Delimiter ++ translatedSentence))

/-! ## ASCII instance of package `strings` -/

/-- ASCII lower-casing of one byte. -/
def asciiLowerByte (b : Nat) : Nat :=
  if 0x41 ≤ b ∧ b ≤ 0x5A then b + 32 else b

/-- ASCII upper-casing of one byte (`unicode.ToTitle` on ASCII). -/
def asciiUpperByte (b : Nat) : Nat :=
  if 0x61 ≤ b ∧ b ≤ 0x7A then b - 32 else b

/-- The ASCII white space of `strings.TrimSpace`: tab, newline, vertical tab,
form feed, carriage return, space. -/
def asciiSpace (b : Nat) : Bool :=
  b == 0x09 || b == 0x0A || b == 0x0B || b == 0x0C || b == 0x0D || b == 0x20

/-- The function `isSeparator` of package `strings` on an ASCII byte: letters,
digits and the underscore are not separators, everything else is. -/
def asciiSeparator (b : Nat) : Bool :=
  !((0x30 ≤ b && b ≤ 0x39) || (0x61 ≤ b && b ≤ 0x7A) || (0x41 ≤ b && b ≤ 0x5A) || b == 0x5F)

/-- The mapping loop of `strings.Title` on ASCII text, `prev` being the
previous character. -/
def asciiTitleFrom : Nat → GoString → GoString
  | _, [] => []
  | prev, b :: bs =>
    (if asciiSeparator prev then asciiUpperByte b else b) :: asciiTitleFrom b bs

/-- Package `strings` on ASCII-only text. -/
def asciiStrings : GoStrings where
  ToLower := fun s => s.map asciiLowerByte
  TrimSpace := fun s => ((s.dropWhile asciiSpace).reverse.dropWhile asciiSpace).reverse
  Title := fun s => asciiTitleFrom 0x20 s

/-! ## The function `strings.Title`, rune by rune -/

/-- The closure `strings.Title` hands to `strings.Map`, run over the runes read,
`prev` being the rune read before: a rune that follows a separator is replaced
by its title case, every other rune is kept. `isSeparator` is the separator test
of package `strings` and `ToTitle` is `unicode.ToTitle`. -/
def titleRunes (isSeparator : Nat → Bool) (ToTitle : Nat → Nat) : Nat → List Nat → List Nat
  | _, [] => []
  | prev, r :: rs =>
    (if isSeparator prev then ToTitle r else r) :: titleRunes isSeparator ToTitle r rs

/-- The function `strings.Title` as the source of package `strings` has it:
`strings.Map` reads the runes of `s` in order, as `range` does, and writes the
encoding of each mapped rune; the rune before the first one is a space. -/
def mapTitle (isSeparator : Nat → Bool) (ToTitle : Nat → Nat) (s : GoString) : GoString :=
  (titleRunes isSeparator ToTitle 0x20 ((rangeString s).map Prod.snd)).flatMap runeString

/-- Package `strings` on ASCII-only text, with `Title` run rune by rune. -/
def asciiMapStrings : GoStrings where
  ToLower := asciiStrings.ToLower
  TrimSpace := asciiStrings.TrimSpace
  Title := mapTitle asciiSeparator asciiUpperByte

/-! ## Vowel scan: byte-level characterisation -/

/-- The vowel letters a, e, i, o, u, y, as byte values. -/
def isVowel (b : Nat) : Bool :=
  b == 'a'.toNat || b == 'e'.toNat || b == 'i'.toNat || b == 'o'.toNat || b == 'u'.toNat
    || b == 'y'.toNat

/-- Left-to-right search for the first vowel byte, offsets counted from `i`. -/
def scanVowel : GoString → Nat → Int × Bool
  | [], _ => (-1, false)
  | b :: bs, i => if isVowel b then ((i : Int), true) else scanVowel bs (i + 1)

theorem vowels_any_runeString (r : Nat) :
    vowels.any (fun vowel => runeString r == vowel) = (decide (r < 0x80) && isVowel r) := by
  by_cases h : r < 0x80
  · simp [vowels, lit, runeString, isVowel, h, List.flatMap]
    rw [Bool.eq_iff_iff]
    simp only [Bool.or_eq_true, beq_iff_eq]
    tauto
  · have h1 : ∀ v ∈ vowels, (runeString r == v) = false := by
      intro v hv
      have hl : v.length = 1 := by
        simp [vowels, lit, runeString, List.flatMap] at hv
        rcases hv with h | h | h | h | h | h <;> simp [h]
      have hr : (runeString r).length ≠ 1 := by
        unfold runeString
        split_ifs <;> simp
      cases hb : runeString r == v
      · rfl
      · exfalso; apply hr; rw [← hl]; simpa using congrArg List.length (by simpa using hb)
    simp [h]
    intro v hv
    simpa using h1 v hv

theorem decodeRune_ascii (b : Nat) (bs : GoString) (h : b < 0x80) :
    decodeRune (b :: bs) = (b, 1) := by
  simp [decodeRune, h]

theorem decodeRune_high (b : Nat) (bs : GoString) (h : ¬ b < 0x80) :
    0x80 ≤ (decodeRune (b :: bs)).1 ∧
      ∀ x ∈ bs.take ((decodeRune (b :: bs)).2 - 1), 0x80 ≤ x := by
  by_cases h2 : b < 0xC2
  · simp [decodeRune, h, h2, RuneError]
  by_cases h3 : b < 0xE0
  · cases bs with
    | nil => simp [decodeRune, h, h2, h3, RuneError]
    | cons s1 r1 =>
      by_cases h5 : 0x80 ≤ s1 ∧ s1 ≤ 0xBF
      · simp [decodeRune, h, h2, h3, h5]; omega
      · simp [decodeRune, h, h2, h3, h5, RuneError]
  by_cases h4 : b < 0xF0
  · match bs with
    | [] => simp [decodeRune, h, h2, h3, h4, RuneError]
    | [_] => simp [decodeRune, h, h2, h3, h4, RuneError]
    | s1 :: s2 :: r2 =>
      by_cases h5 : (if b = 0xE0 then 0xA0 else 0x80) ≤ s1 ∧ s1 ≤ (if b = 0xED then 0x9F else 0xBF)
            ∧ 0x80 ≤ s2 ∧ s2 ≤ 0xBF
      · simp only [decodeRune, h, h2, h3, h4, h5, if_true, if_false]
        simp
        split_ifs at h5 <;> omega
      · simp [decodeRune, h, h2, h3, h4, h5, RuneError]
  by_cases h6 : b < 0xF5
  · match bs with
    | [] => simp [decodeRune, h, h2, h3, h4, h6, RuneError]
    | [_] => simp [decodeRune, h, h2, h3, h4, h6, RuneError]
    | [_, _] => simp [decodeRune, h, h2, h3, h4, h6, RuneError]
    | s1 :: s2 :: s3 :: r3 =>
      by_cases h5 : (if b = 0xF0 then 0x90 else 0x80) ≤ s1 ∧ s1 ≤ (if b = 0xF4 then 0x8F else 0xBF)
            ∧ 0x80 ≤ s2 ∧ s2 ≤ 0xBF ∧ 0x80 ≤ s3 ∧ s3 ≤ 0xBF
      · simp only [decodeRune, h, h2, h3, h4, h6, h5, if_true, if_false]
        simp
        split_ifs at h5 <;> omega
      · simp [decodeRune, h, h2, h3, h4, h6, h5, RuneError]
  · simp [decodeRune, h, h2, h3, h4, h6, RuneError]

theorem isVowel_high (x : Nat) (h : 0x80 ≤ x) : isVowel x = false := by
  simp [isVowel]; omega

theorem findVowelLoop_rangeFrom (s : GoString) : ∀ (skip i : Nat),
    (∀ x ∈ s.take skip, 0x80 ≤ x) → findVowelLoop (rangeFrom s skip i) = scanVowel s i := by
  induction s with
  | nil => intro skip i _; simp [rangeFrom, findVowelLoop, scanVowel]
  | cons b bs ih =>
    intro skip i hs
    cases skip with
    | succ k =>
      have hb : 0x80 ≤ b := hs b (by simp)
      have ht : ∀ x ∈ bs.take k, 0x80 ≤ x := fun x hx => hs x (by simp [hx])
      simp [rangeFrom, scanVowel, isVowel_high b hb, ih k (i + 1) ht]
    | zero =>
      by_cases hb : b < 0x80
      · have hd := decodeRune_ascii b bs hb
        simp only [rangeFrom, findVowelLoop, scanVowel, vowels_any_runeString, hd]
        simp only [hb, decide_True, Bool.true_and]
        by_cases hv : isVowel b = true
        · simp [hv]
        · simp [hv, ih 0 (i + 1) (by simp)]
      · have hd := decodeRune_high b bs hb
        have hnv : ¬ (decodeRune (b :: bs)).1 < 0x80 := by omega
        simp only [rangeFrom, findVowelLoop, scanVowel, vowels_any_runeString]
        simp [hnv, isVowel_high b (by omega), ih _ (i + 1) hd.2]

theorem findVowel_eq_scanVowel (s : GoString) : findVowel s = scanVowel s 0 :=
  findVowelLoop_rangeFrom s 0 0 (by simp)

theorem scanVowel_none (s : GoString) : ∀ (i : Nat),
    (∀ b ∈ s, isVowel b = false) → scanVowel s i = (-1, false) := by
  induction s with
  | nil => intro i _; rfl
  | cons b bs ih =>
    intro i h
    simp [scanVowel, h b (by simp), ih (i + 1) (fun x hx => h x (by simp [hx]))]

theorem scanVowel_first (pre : GoString) (c : Nat) (post : GoString) (hc : isVowel c = true) :
    ∀ (i : Nat), (∀ b ∈ pre, isVowel b = false) →
      scanVowel (pre ++ c :: post) i = (((i + pre.length : Nat) : Int), true) := by
  induction pre with
  | nil => intro i _; simp [scanVowel, hc]
  | cons b bs ih =>
    intro i h
    have e := ih (i + 1) (fun x hx => h x (by simp [hx]))
    rw [List.cons_append, scanVowel, if_neg (by simp [h b (by simp)]), e, List.length_cons]
    congr 2; omega

/-- A string whose byte at offset `v` is `c` splits there. -/
theorem split_at_index (l : GoString) (v c : Nat) (h : l[v]? = some c) :
    l = l.take v ++ c :: l.drop (v + 1) ∧ v < l.length := by
  have hv : v < l.length := by
    by_contra hn
    rw [List.getElem?_eq_none (by omega)] at h
    cases h
  refine ⟨?_, hv⟩
  have hg : l[v] = c := by
    rw [List.getElem?_eq_getElem hv] at h
    exact Option.some.inj h
  rw [← hg, ← List.drop_eq_getElem_cons hv, List.take_append_drop]

/-- The vowel scan of a string whose first vowel is at offset `v`. -/
theorem findVowel_first (l : GoString) (v c : Nat) (h : l[v]? = some c)
    (hc : isVowel c = true) (hfirst : ∀ b ∈ l.take v, isVowel b = false) :
    findVowel l = ((v : Int), true) := by
  obtain ⟨hl, hv⟩ := split_at_index l v c h
  rw [findVowel_eq_scanVowel, hl, scanVowel_first _ c _ hc 0 hfirst]
  simp [List.length_take, Nat.min_eq_left (Nat.le_of_lt hv)]

theorem slice_ok (s : GoString) (lo hi : Nat) (h1 : lo ≤ hi) (h2 : hi ≤ s.length) :
    slice s (lo : Int) (hi : Int) = .ok ((s.take hi).drop lo) := by
  unfold slice
  rw [if_pos ⟨by omega, by omega, by omega⟩]
  simp

/-- What `translate` computes once the vowel scan has found offset `v ≥ 1`. -/
theorem translate_of_findVowel (L : GoStrings) (word : GoString) (v : Nat)
    (hf : findVowel (L.ToLower word) = ((v : Int), true)) (hv1 : 1 ≤ v)
    (hlen : v < (L.ToLower word).length) :
    translate L word =
      if (L.ToLower word).take 2 = lit "xr" then .ok (lit "ge" ++ L.ToLower word)
      else if v = 2 ∧ ((L.ToLower word).take 3).drop 1 = lit "qu" then
        .ok ((L.ToLower word).drop 3 ++ (L.ToLower word).take 3 ++ lit "ogo")
      else .ok ((L.ToLower word).drop v ++ (L.ToLower word).take v ++ lit "ogo") := by
  generalize hl : L.ToLower word = l at hf hlen
  have hv0 : ¬ ((v : Int) = 0) := by omega
  have s02 : slice l 0 2 = .ok (l.take 2) := by
    simpa using slice_ok l 0 2 (by omega) (by omega)
  have sv : sliceFrom l (v : Int) = .ok (l.drop v) := by
    unfold sliceFrom
    rw [slice_ok l v l.length (by omega) (by omega)]; simp
  have tv : sliceTo l (v : Int) = .ok (l.take v) := by
    unfold sliceTo
    simpa using slice_ok l 0 v (by omega) (by omega)
  unfold translate
  simp only [hl, hf, Bool.not_true, Bool.false_eq_true, if_false, hv0, s02]
  by_cases hxr : l.take 2 = lit "xr"
  · simp [hxr, bind, Except.bind]
  · by_cases h2 : v = 2
    · subst h2
      have s13 : slice l 1 3 = .ok ((l.take 3).drop 1) := by
        simpa using slice_ok l 1 3 (by omega) (by omega)
      have s3 : sliceFrom l 3 = .ok (l.drop 3) := by
        unfold sliceFrom
        have e := slice_ok l 3 l.length (by omega) (by omega)
        simpa using e
      have t3 : sliceTo l 3 = .ok (l.take 3) := by
        unfold sliceTo
        simpa using slice_ok l 0 3 (by omega) (by omega)
      simp only [Nat.cast_ofNat] at sv tv
      by_cases hqu : (l.take 3).drop 1 = lit "qu"
      · simp [hxr, bind, Except.bind, s13, hqu, s3, t3, pure, Except.pure]
      · have hqu2 : ¬ (l.take 3).tail = lit "qu" := by simpa using hqu
        simp [hxr, bind, Except.bind, s13, hqu, hqu2, s3, t3, sv, tv, pure, Except.pure]
    · have h2i : ¬ ((v : Int) = 2) := by omega
      simp [hxr, bind, Except.bind, h2, h2i, sv, tv, pure, Except.pure]

/-- Every string that has a vowel byte has a first one. -/
theorem exists_first_vowel (l : GoString) (h : ∃ b ∈ l, isVowel b = true) :
    ∃ v c, l[v]? = some c ∧ isVowel c = true ∧ ∀ b ∈ l.take v, isVowel b = false := by
  induction l with
  | nil => simp at h
  | cons a as ih =>
    by_cases ha : isVowel a = true
    · exact ⟨0, a, by simp, ha, by simp⟩
    · have h2 : ∃ b ∈ as, isVowel b = true := by
        obtain ⟨b, hb, hbv⟩ := h
        rcases List.mem_cons.mp hb with e | e
        · subst e; exact absurd hbv ha
        · exact ⟨b, e, hbv⟩
      obtain ⟨v, c, h1, h3, h4⟩ := ih h2
      refine ⟨v + 1, c, by simpa using h1, h3, ?_⟩
      intro b hb
      rw [List.take_succ_cons] at hb
      rcases List.mem_cons.mp hb with e | e
      · subst e; simpa using ha
      · exact h4 b e

/-! ## The transliteration rules -/

/-- C1: a word whose lowercase form begins with one of the vowels a, e, i, o, u, y
is translated to "g" followed by the lowercase form. -/
theorem translate_vowel_initial (L : GoStrings) (word : GoString) (c : Nat)
    (h0 : (L.ToLower word)[0]? = some c) (hc : isVowel c = true) :
    translate L word = .ok (lit "g" ++ L.ToLower word) := by
  have hf := findVowel_first (L.ToLower word) 0 c h0 hc (by simp)
  unfold translate
  simp [hf]

theorem translate_vowel_initial_witness :
    (asciiStrings.ToLower (lit "apple"))[0]? = some 'a'.toNat ∧ isVowel 'a'.toNat = true ∧
      translate asciiStrings (lit "apple") = .ok (lit "gapple") :=
  ⟨by decide, by decide,
    translate_vowel_initial asciiStrings (lit "apple") 'a'.toNat (by decide) (by decide)⟩

/-- C2: general rule. When the lowercase form `l` of the word has its first vowel
at offset `v ≥ 1`, does not start with "xr", and it is not the case that `v = 2`
and `l[1:3]` is "qu", the translation is `l[v:] ++ l[:v] ++ "ogo"`. -/
theorem translate_general (L : GoStrings) (word : GoString) (v c : Nat)
    (hv : (L.ToLower word)[v]? = some c) (hc : isVowel c = true)
    (hfirst : ∀ b ∈ (L.ToLower word).take v, isVowel b = false) (hv1 : 1 ≤ v)
    (hxr : ¬ lit "xr" <+: L.ToLower word)
    (hqu : ¬ (v = 2 ∧ ((L.ToLower word).take 3).drop 1 = lit "qu")) :
    translate L word =
      .ok ((L.ToLower word).drop v ++ (L.ToLower word).take v ++ lit "ogo") := by
  have hf := findVowel_first (L.ToLower word) v c hv hc hfirst
  have hlen := (split_at_index (L.ToLower word) v c hv).2
  rw [translate_of_findVowel L word v hf hv1 hlen]
  have hx : ¬ (L.ToLower word).take 2 = lit "xr" := by
    intro e
    exact hxr (e ▸ List.take_prefix 2 _)
  rw [if_neg hx, if_neg hqu]

theorem translate_general_witness :
    translate asciiStrings (lit "chair") = .ok (lit "airchogo") :=
  translate_general asciiStrings (lit "chair") 2 'a'.toNat (by decide) (by decide)
    (by decide) (by decide) (by decide) (by decide)

/-- C3: qu rule. When the lowercase form `l` of the word has its first vowel at
offset 2 and `l[1:3]` is "qu", the translation is `l[3:] ++ l[:3] ++ "ogo"`. -/
theorem translate_qu (L : GoStrings) (word : GoString) (c : Nat)
    (hv : (L.ToLower word)[2]? = some c) (hc : isVowel c = true)
    (hfirst : ∀ b ∈ (L.ToLower word).take 2, isVowel b = false)
    (hqu : ((L.ToLower word).take 3).drop 1 = lit "qu") :
    translate L word =
      .ok ((L.ToLower word).drop 3 ++ (L.ToLower word).take 3 ++ lit "ogo") := by
  have hf := findVowel_first (L.ToLower word) 2 c hv hc hfirst
  have hlen := (split_at_index (L.ToLower word) 2 c hv).2
  rw [translate_of_findVowel L word 2 hf (by omega) hlen]
  have hx : ¬ (L.ToLower word).take 2 = lit "xr" := by
    intro e
    generalize L.ToLower word = l at hqu e hlen
    match l, hlen with
    | a :: b :: d :: rest, _ =>
      simp [lit, runeString, List.flatMap] at hqu e
      omega
  rw [if_neg hx, if_pos ⟨rfl, hqu⟩]

theorem translate_qu_witness :
    translate asciiStrings (lit "square") = .ok (lit "aresquogo") :=
  translate_qu asciiStrings (lit "square") 'u'.toNat (by decide) (by decide)
    (by decide) (by decide)

/-- C4: xr rule. When the lowercase form `l` of the word starts with "xr" and has
a vowel, the translation is "ge" followed by `l`, wherever the first vowel is. -/
theorem translate_xr (L : GoStrings) (word : GoString)
    (hxr : lit "xr" <+: L.ToLower word) (hvow : ∃ b ∈ L.ToLower word, isVowel b = true) :
    translate L word = .ok (lit "ge" ++ L.ToLower word) := by
  obtain ⟨v, c, hv, hc, hfirst⟩ := exists_first_vowel _ hvow
  have hf := findVowel_first (L.ToLower word) v c hv hc hfirst
  have hlen := (split_at_index (L.ToLower word) v c hv).2
  obtain ⟨t, ht⟩ := hxr
  have hv1 : 1 ≤ v := by
    by_contra hn
    have h0 : v = 0 := by omega
    subst h0
    rw [← ht] at hv
    simp [lit, runeString, List.flatMap] at hv
    subst hv
    simp [isVowel] at hc
  rw [translate_of_findVowel L word v hf hv1 hlen]
  have hx : (L.ToLower word).take 2 = lit "xr" := by
    rw [← ht]
    simp [lit, runeString, List.flatMap]
  rw [if_pos hx]

theorem translate_xr_witness :
    translate asciiStrings (lit "xray") = .ok (lit "gexray") :=
  translate_xr asciiStrings (lit "xray") ⟨lit "ay", by decide⟩
    ⟨'a'.toNat, by decide, by decide⟩

/-- C5: a word whose lowercase form contains none of a, e, i, o, u, y is
translated to its lowercase form, nothing added or moved. -/
theorem translate_no_vowel (L : GoStrings) (word : GoString)
    (h : ∀ b ∈ L.ToLower word, isVowel b = false) :
    translate L word = .ok (L.ToLower word) := by
  have hf : findVowel (L.ToLower word) = (-1, false) := by
    rw [findVowel_eq_scanVowel]
    exact scanVowel_none _ 0 h
  unfold translate
  simp [hf]

theorem translate_no_vowel_witness :
    translate asciiStrings (lit "Hmm") = .ok (lit "hmm") :=
  translate_no_vowel asciiStrings (lit "Hmm") (by decide)

/-! ## String comparison and sorting -/

theorem strLess_asymm : ∀ (a b : GoString), strLess a b = true → strLess b a = false := by
  intro a
  induction a with
  | nil => intro b _; cases b <;> simp [strLess]
  | cons x xs ih =>
    intro b h
    cases b with
    | nil => simp [strLess] at h
    | cons y ys =>
      simp only [strLess] at h ⊢
      split_ifs at h ⊢ <;> first | omega | rfl | exact ih ys h

theorem strLess_negtrans : ∀ (a b c : GoString),
    strLess a b = false → strLess b c = false → strLess a c = false := by
  intro a
  induction a with
  | nil =>
    intro b c h1 h2
    cases b with
    | nil => exact h2
    | cons y ys => simp [strLess] at h1
  | cons x xs ih =>
    intro b c h1 h2
    cases c with
    | nil => simp [strLess]
    | cons z zs =>
      cases b with
      | nil => simp [strLess] at h2
      | cons y ys =>
        simp only [strLess] at h1 h2 ⊢
        split_ifs at h1 h2 ⊢ <;> first | omega | rfl | exact ih ys zs h1 h2

theorem insertBack_perm (less : GoString → GoString → Bool) (x : GoString) :
    ∀ (ys : List GoString), (insertBack less x ys).Perm (x :: ys) := by
  intro ys
  induction ys with
  | nil => simp [insertBack]
  | cons y ys ih =>
    simp only [insertBack]
    split_ifs
    · exact (List.Perm.cons y ih).trans (List.Perm.swap x y ys)
    · exact List.Perm.refl _

theorem insertBack_sorted (less : GoString → GoString → Bool)
    (hasymm : ∀ a b, less a b = true → less b a = false)
    (hneg : ∀ a b c, less a b = false → less b c = false → less a c = false)
    (x : GoString) : ∀ (ys : List GoString),
    ys.Pairwise (fun a b => less a b = false) →
      (insertBack less x ys).Pairwise (fun a b => less a b = false) := by
  intro ys
  induction ys with
  | nil => intro _; simp [insertBack]
  | cons y ys ih =>
    intro h
    rw [List.pairwise_cons] at h
    simp only [insertBack]
    split_ifs with hxy
    · rw [List.pairwise_cons]
      refine ⟨?_, ih h.2⟩
      intro z hz
      rcases List.mem_cons.mp ((insertBack_perm less x ys).mem_iff.mp hz) with e | e
      · subst e; exact hasymm _ _ hxy
      · exact h.1 z e
    · have hxy2 : less x y = false := by simpa using hxy
      rw [List.pairwise_cons]
      refine ⟨?_, List.pairwise_cons.mpr h⟩
      intro z hz
      rcases List.mem_cons.mp hz with e | e
      · subst e; exact hxy2
      · exact hneg _ _ _ hxy2 (h.1 z e)

theorem foldl_insertBack_perm (less : GoString → GoString → Bool) :
    ∀ (xs acc : List GoString),
      (xs.foldl (fun sorted x => insertBack less x sorted) acc).Perm (acc ++ xs) := by
  intro xs
  induction xs with
  | nil => intro acc; simp
  | cons x xs ih =>
    intro acc
    simp only [List.foldl_cons]
    refine (ih _).trans ?_
    refine ((insertBack_perm less x acc).append_right xs).trans ?_
    simpa using (@List.perm_middle _ x acc xs).symm

theorem foldl_insertBack_sorted (less : GoString → GoString → Bool)
    (hasymm : ∀ a b, less a b = true → less b a = false)
    (hneg : ∀ a b c, less a b = false → less b c = false → less a c = false) :
    ∀ (xs acc : List GoString), acc.Pairwise (fun a b => less a b = false) →
      (xs.foldl (fun sorted x => insertBack less x sorted) acc).Pairwise
        (fun a b => less a b = false) := by
  intro xs
  induction xs with
  | nil => intro acc h; simpa using h
  | cons x xs ih =>
    intro acc h
    simp only [List.foldl_cons]
    exact ih _ (insertBack_sorted less hasymm hneg x acc h)

/-- The result of `sortSlice` is a permutation of its input. -/
theorem sortSlice_perm (less : GoString → GoString → Bool) (lines : List GoString) :
    (sortSlice less lines).Perm lines := by
  unfold sortSlice
  refine (List.reverse_perm _).trans ?_
  simpa using foldl_insertBack_perm less lines []

/-- The result of `sortSlice` by the lowercase forms is in non-decreasing order
of the lowercase forms. -/
theorem sortSlice_sorted (f : GoString → GoString) (lines : List GoString) :
    (sortSlice (fun a b => strLess (f a) (f b)) lines).Pairwise
      (fun a b => strLe (f a) (f b) = true) := by
  unfold sortSlice
  rw [List.pairwise_reverse]
  have h := foldl_insertBack_sorted (fun a b => strLess (f a) (f b))
    (fun a b => strLess_asymm (f a) (f b))
    (fun a b c => strLess_negtrans (f a) (f b) (f c)) lines [] List.Pairwise.nil
  refine h.imp ?_
  intro a b hab
  simp [strLe, hab]

/-! ## Index and Split -/

/-- The offset `Index` returns is that of the first occurrence; `none` is returned
only when there is no occurrence. -/
theorem Index_spec (sep : GoString) : ∀ (s : GoString),
    match Index s sep with
    | none => ∀ k, ¬ sep <+: s.drop k
    | some m => sep <+: s.drop m ∧ m ≤ s.length ∧ ∀ k, k < m → ¬ sep <+: s.drop k := by
  intro s
  induction s with
  | nil =>
    unfold Index
    by_cases h : sep.isPrefixOf [] = true
    · simp only [h, if_true]
      exact ⟨by simpa using List.isPrefixOf_iff_prefix.mp h, by simp, by omega⟩
    · simp only [h, if_false]
      intro k hk
      exact h (List.isPrefixOf_iff_prefix.mpr (by simpa using hk))
  | cons b bs ih =>
    unfold Index
    by_cases h : sep.isPrefixOf (b :: bs) = true
    · simp only [h, if_true]
      exact ⟨by simpa using List.isPrefixOf_iff_prefix.mp h, by simp, by omega⟩
    · simp only [h, if_false]
      cases hi : Index bs sep with
      | none =>
        rw [hi] at ih
        simp only [Option.map_none']
        intro k
        cases k with
        | zero => intro hk; exact h (List.isPrefixOf_iff_prefix.mpr (by simpa using hk))
        | succ k => simpa using ih k
      | some m =>
        rw [hi] at ih
        simp only [Option.map_some']
        refine ⟨by simpa using ih.1, by simpa using ih.2.1, ?_⟩
        intro k hk
        cases k with
        | zero => intro hk; exact h (List.isPrefixOf_iff_prefix.mpr (by simpa using hk))
        | succ k => simpa using ih.2.2 k (by omega)

theorem infix_iff_prefix_drop (sep s : GoString) :
    sep <:+: s ↔ ∃ k, sep <+: s.drop k := by
  constructor
  · rintro ⟨a, c, rfl⟩
    exact ⟨a.length, by simp⟩
  · rintro ⟨k, c, hc⟩
    exact ⟨s.take k, c, by rw [List.append_assoc, hc, List.take_append_drop]⟩

theorem Index_eq_none_iff (s sep : GoString) : Index s sep = none ↔ ¬ sep <:+: s := by
  have h := Index_spec sep s
  rw [infix_iff_prefix_drop]
  cases hi : Index s sep with
  | none => rw [hi] at h; simpa using h
  | some m =>
    rw [hi] at h
    constructor
    · intro hc; cases hc
    · intro hne; exact absurd ⟨m, h.1⟩ hne

/-- The offset of the first occurrence determines the result of `Index`. -/
theorem Index_eq_some (s sep : GoString) (m : Nat) (h1 : sep <+: s.drop m)
    (h2 : ∀ k, k < m → ¬ sep <+: s.drop k) : Index s sep = some m := by
  have h := Index_spec sep s
  cases hi : Index s sep with
  | none => rw [hi] at h; exact absurd h1 (h m)
  | some m2 =>
    rw [hi] at h
    rcases Nat.lt_trichotomy m2 m with hlt | heq | hgt
    · exact absurd h.1 (h2 m2 hlt)
    · rw [heq]
    · exact absurd h1 (h.2.2 m hgt)

theorem splitLoop_ne_nil (sep : GoString) (fuel : Nat) (s : GoString) :
    ∃ a rest, splitLoop sep fuel s = a :: rest := by
  cases fuel with
  | zero => exact ⟨s, [], rfl⟩
  | succ n =>
    unfold splitLoop
    cases Index s sep with
    | none => exact ⟨s, [], rfl⟩
    | some m => exact ⟨_, _, rfl⟩

/-- A string without the separator is not split. -/
theorem Split_without_sep (s sep : GoString) (h : ¬ sep <:+: s) : Split s sep = [s] := by
  unfold Split
  cases s.length with
  | zero => rfl
  | succ n =>
    unfold splitLoop
    rw [(Index_eq_none_iff s sep).mpr h]

/-- A string with the (non-empty) separator is split into two pieces at least,
the first of which ends where `Index` finds the separator. -/
theorem Split_with_sep (s sep : GoString) (hsep : sep ≠ []) (h : sep <:+: s) :
    ∃ m b rest, Index s sep = some m ∧ Split s sep = s.take m :: b :: rest := by
  have hlen : 0 < s.length := by
    obtain ⟨a, c, rfl⟩ := h
    have : 0 < sep.length := List.length_pos.mpr hsep
    simp only [List.length_append]
    omega
  cases hi : Index s sep with
  | none => exact absurd h ((Index_eq_none_iff s sep).mp hi)
  | some m =>
    obtain ⟨n, hn⟩ : ∃ n, s.length = n + 1 := ⟨s.length - 1, by omega⟩
    obtain ⟨b, rest, hb⟩ := splitLoop_ne_nil sep n (s.drop (m + sep.length))
    refine ⟨m, b, rest, rfl, ?_⟩
    unfold Split
    rw [hn]
    unfold splitLoop
    rw [hi]
    simp [hb]

/-! ## Reading the history -/

theorem Delimiter_ne_nil : Delimiter ≠ [] := by decide

/-- A line with the delimiter is parsed: the key is the text before the first
delimiter, the value is the second piece of the split. -/
theorem historyEntry_with_delimiter (line : GoString) (h : Delimiter <:+: line) :
    ∃ m b rest, Index line Delimiter = some m ∧
      Split line Delimiter = line.take m :: b :: rest ∧
      historyEntry line = .ok [(line.take m, b)] := by
  obtain ⟨m, b, rest, hi, hs⟩ := Split_with_sep line Delimiter Delimiter_ne_nil h
  refine ⟨m, b, rest, hi, hs, ?_⟩
  simp [historyEntry, hs, index, bind, Except.bind, pure, Except.pure, mapSet]

/-- A line without the delimiter makes `records[1]` panic. -/
theorem historyEntry_without_delimiter (line : GoString) (h : ¬ Delimiter <:+: line) :
    historyEntry line = .error .indexRange := by
  simp [historyEntry, Split_without_sep line Delimiter h, index, bind, Except.bind]

theorem historyEntries_ok : ∀ (lines : List GoString),
    (∀ line ∈ lines, Delimiter <:+: line) →
      ∃ entries, historyEntries lines = .ok entries ∧
        List.Forall₂ (fun line entry => historyEntry line = .ok entry) lines entries := by
  intro lines
  induction lines with
  | nil => intro _; exact ⟨[], rfl, List.Forall₂.nil⟩
  | cons l ls ih =>
    intro h
    obtain ⟨m, b, rest, _, _, he⟩ := historyEntry_with_delimiter l (h l (by simp))
    obtain ⟨es, hes, hf⟩ := ih (fun x hx => h x (by simp [hx]))
    refine ⟨[(l.take m, b)] :: es, ?_, List.Forall₂.cons he hf⟩
    simp [historyEntries, he, hes, bind, Except.bind, pure, Except.pure]

/-- Reading a log all of whose lines contain the delimiter. -/
theorem readHistory_all_delimited (L : GoStrings) (body : GoString)
    (h : ∀ line ∈ Split body (lit "\n"), Delimiter <:+: line) :
    ∃ sorted entries,
      readHistory L (some body) = .ok [(lit "history", entries)] ∧
      sorted.Perm (Split body (lit "\n")) ∧
      List.Forall₂ (fun line entry => historyEntry line = .ok entry) sorted entries ∧
      sorted.Pairwise (fun a b => strLe (L.ToLower a) (L.ToLower b) = true) := by
  have hp := sortSlice_perm (fun a b => strLess (L.ToLower a) (L.ToLower b))
    (Split body (lit "\n"))
  obtain ⟨entries, he, hf⟩ := historyEntries_ok _ (fun line hl => h line (hp.mem_iff.mp hl))
  refine ⟨_, entries, ?_, hp, hf, sortSlice_sorted L.ToLower _⟩
  simp [readHistory, he, bind, Except.bind, pure, Except.pure]

/-- C6: when every raw line of an existing log contains the delimiter,
`readHistory` returns one entry per line of a permutation of the raw lines, in
which the lowercase form of each line is at most that of every later line (so of
the next one). -/
theorem readHistory_sorted_permutation (L : GoStrings) (body : GoString)
    (h : ∀ line ∈ Split body (lit "\n"), Delimiter <:+: line) :
    ∃ sorted entries,
      readHistory L (some body) = .ok [(lit "history", entries)] ∧
      sorted.Perm (Split body (lit "\n")) ∧
      List.Forall₂ (fun line entry => historyEntry line = .ok entry) sorted entries ∧
      sorted.Pairwise (fun a b => strLe (L.ToLower a) (L.ToLower b) = true) :=
  readHistory_all_delimited L body h

theorem readHistory_sorted_permutation_witness :
    ∃ sorted entries,
      readHistory asciiStrings (some (lit "Bob######obbogo\nalice######galice")) =
        .ok [(lit "history", entries)] ∧
      sorted.Perm (Split (lit "Bob######obbogo\nalice######galice") (lit "\n")) ∧
      List.Forall₂ (fun line entry => historyEntry line = .ok entry) sorted entries ∧
      sorted.Pairwise
        (fun a b => strLe (asciiStrings.ToLower a) (asciiStrings.ToLower b) = true) :=
  readHistory_sorted_permutation asciiStrings (lit "Bob######obbogo\nalice######galice")
    (by decide)

/-- C8: `writeHistory` creates an absent log with exactly the record, and turns
an existing content `c` into `c`, a newline, the record. -/
theorem writeHistory_content (record : GoString) :
    writeHistory none record = some record ∧
      (∀ c, writeHistory (some c) record = some (c ++ lit "\n" ++ record)) ∧
      ∀ c, ∃ content, writeHistory (some c) record = some content ∧ c <+: content :=
  ⟨rfl, fun _ => rfl, fun c => ⟨_, rfl, by simp [List.append_assoc]⟩⟩

/-! ## Appending, then reading -/

theorem singleton_infix_iff_mem (c : Nat) (s : GoString) : [c] <:+: s ↔ c ∈ s := by
  constructor
  · rintro ⟨a, b, rfl⟩
    simp
  · intro h
    obtain ⟨a, b, rfl⟩ := List.append_of_mem h
    exact ⟨a, b, by simp⟩

theorem splitLoop_without_sep (sep : GoString) (fuel : Nat) (s : GoString)
    (h : ¬ sep <:+: s) : splitLoop sep fuel s = [s] := by
  cases fuel with
  | zero => rfl
  | succ n =>
    unfold splitLoop
    rw [(Index_eq_none_iff s sep).mpr h]

/-- The fuel of `splitLoop` does not matter once it reaches the length. -/
theorem splitLoop_fuel (sep : GoString) (hsep : sep ≠ []) : ∀ (f1 f2 : Nat) (s : GoString),
    s.length ≤ f1 → s.length ≤ f2 → splitLoop sep f1 s = splitLoop sep f2 s := by
  have hnil : Index [] sep = none := by
    cases sep with
    | nil => exact absurd rfl hsep
    | cons a as => simp [Index, List.isPrefixOf]
  intro f1
  induction f1 with
  | zero =>
    intro f2 s h1 _
    have hs : s = [] := List.length_eq_zero.mp (by omega)
    subst hs
    cases f2 with
    | zero => rfl
    | succ n => simp [splitLoop, hnil]
  | succ n ih =>
    intro f2 s h1 h2
    cases f2 with
    | zero =>
      have hs : s = [] := List.length_eq_zero.mp (by omega)
      subst hs
      simp [splitLoop, hnil]
    | succ k =>
      unfold splitLoop
      cases hi : Index s sep with
      | none => rfl
      | some m =>
        have hpos : 0 < sep.length := List.length_pos.mpr hsep
        have hl : (s.drop (m + sep.length)).length ≤ n := by
          rw [List.length_drop]; omega
        have hl2 : (s.drop (m + sep.length)).length ≤ k := by
          rw [List.length_drop]; omega
        simp only [ih k _ hl hl2]

theorem Split_cons_of_Index (s sep : GoString) (hsep : sep ≠ []) (m : Nat)
    (hi : Index s sep = some m) :
    Split s sep = s.take m :: Split (s.drop (m + sep.length)) sep := by
  have hpos : 0 < sep.length := List.length_pos.mpr hsep
  have hlen : 0 < s.length := by
    have h := Index_spec sep s
    rw [hi] at h
    have := h.1.length_le
    rw [List.length_drop] at this
    omega
  obtain ⟨n, hn⟩ : ∃ n, s.length = n + 1 := ⟨s.length - 1, by omega⟩
  unfold Split
  rw [hn]
  conv => lhs; unfold splitLoop
  rw [hi]
  simp only
  rw [splitLoop_fuel sep hsep n (s.drop (m + sep.length)).length _
    (by rw [List.length_drop]; omega) (Nat.le_refl _)]

theorem singleton_prefix_drop (c : Nat) (a : GoString) (k : Nat) (hk : k < a.length)
    (t : GoString) : [c] <+: (a ++ t).drop k ↔ c = a[k] := by
  rw [List.drop_append_of_le_length (Nat.le_of_lt hk), List.drop_eq_getElem_cons hk]
  simp only [List.cons_append, List.cons_prefix_cons, List.nil_prefix, and_true]

theorem singleton_prefix_drop_self (c : Nat) (a : GoString) (k : Nat) (hk : k < a.length) :
    [c] <+: a.drop k ↔ c = a[k] := by
  simpa using singleton_prefix_drop c a k hk []

/-- Splitting on a one-byte separator: a last piece without the separator is
split off as it is. -/
theorem Split_append_byte (c : Nat) (r : GoString) (hr : c ∉ r) :
    ∀ (n : Nat) (a : GoString), a.length ≤ n →
      Split (a ++ c :: r) [c] = Split a [c] ++ [r] := by
  have hsep : ([c] : GoString) ≠ [] := by simp
  have hr2 : ¬ [c] <:+: r := fun h => hr ((singleton_infix_iff_mem c r).mp h)
  intro n
  induction n with
  | zero =>
    intro a ha
    have hs : a = [] := List.length_eq_zero.mp (by omega)
    subst hs
    have hi : Index (([] : GoString) ++ c :: r) [c] = some 0 :=
      Index_eq_some _ _ 0 (by simp) (by omega)
    have e0 : Split ([] : GoString) [c] = [[]] := rfl
    rw [Split_cons_of_Index _ _ hsep 0 hi, e0]
    simp [Split_without_sep r [c] hr2]
  | succ n ih =>
    intro a ha
    have hspec := Index_spec [c] a
    cases hia : Index a [c] with
    | none =>
      rw [hia] at hspec
      have hi : Index (a ++ c :: r) [c] = some a.length := by
        apply Index_eq_some
        · simp
        · intro k hk hp
          have e := (singleton_prefix_drop c a k hk (c :: r)).mp hp
          exact hspec k ((singleton_prefix_drop_self c a k hk).mpr e)
      rw [Split_cons_of_Index _ _ hsep _ hi,
        Split_without_sep a [c] ((Index_eq_none_iff a [c]).mp hia)]
      simp [Split_without_sep r [c] hr2]
    | some m =>
      rw [hia] at hspec
      have hm : m < a.length := by
        have := hspec.1.length_le
        rw [List.length_drop] at this
        simp at this
        omega
      have hcm : c = a[m] := (singleton_prefix_drop_self c a m hm).mp hspec.1
      have hi : Index (a ++ c :: r) [c] = some m := by
        apply Index_eq_some
        · exact (singleton_prefix_drop c a m hm (c :: r)).mpr hcm
        · intro k hk hp
          have hka : k < a.length := by omega
          have e := (singleton_prefix_drop c a k hka (c :: r)).mp hp
          exact hspec.2.2 k hk ((singleton_prefix_drop_self c a k hka).mpr e)
      rw [Split_cons_of_Index _ _ hsep _ hi, Split_cons_of_Index _ _ hsep _ hia]
      have hd : (a ++ c :: r).drop (m + [c].length) = a.drop (m + 1) ++ c :: r := by
        rw [List.length_singleton, List.drop_append_of_le_length (by omega)]
      have ht : (a ++ c :: r).take m = a.take m := by
        rw [List.take_append_of_le_length (by omega)]
      rw [hd, ht, List.length_singleton,
        ih (a.drop (m + 1)) (by rw [List.length_drop]; omega)]
      simp

/-- In a record `o ++ Delimiter ++ t` whose `o` neither contains the delimiter
nor ends with its character, the first delimiter starts right after `o`. -/
theorem Index_record (o t : GoString) (ho : ¬ Delimiter <:+: o) (hend : ¬ lit "#" <:+ o) :
    Index (o ++ Delimiter ++ t) Delimiter = some o.length := by
  apply Index_eq_some
  · simp [List.append_assoc]
  · intro k hk hp
    rw [List.append_assoc, List.drop_append_of_le_length (Nat.le_of_lt hk)] at hp
    have hne : o.drop k ≠ [] := by
      intro e
      have := congrArg List.length e
      rw [List.length_drop] at this
      simp at this
      omega
    by_cases hlen : Delimiter.length ≤ (o.drop k).length
    · have hpre : Delimiter <+: o.drop k :=
        List.prefix_of_prefix_length_le hp (List.prefix_append _ _) hlen
      exact ho ((infix_iff_prefix_drop Delimiter o).mpr ⟨k, hpre⟩)
    · have hpre : o.drop k <+: Delimiter :=
        List.prefix_of_prefix_length_le (List.prefix_append _ _) hp (by omega)
      have hall : ∀ x ∈ o.drop k, x = '#'.toNat := by
        intro x hx
        have hx2 : x ∈ Delimiter := hpre.subset hx
        revert hx2
        simp [Delimiter, lit, runeString, List.flatMap]
      have hlast := hall _ (List.getLast_mem hne)
      apply hend
      refine List.IsSuffix.trans ?_ (List.drop_suffix k o)
      refine ⟨(o.drop k).dropLast, ?_⟩
      have e := List.dropLast_append_getLast hne
      rw [hlast] at e
      exact e

/-- The record written for `(o, t)` is read back as the entry binding `o` to `t`. -/
theorem historyEntry_record (o t : GoString) (ho : ¬ Delimiter <:+: o)
    (hend : ¬ lit "#" <:+ o) (ht : ¬ Delimiter <:+: t) :
    historyEntry (o ++ Delimiter ++ t) = .ok [(o, t)] := by
  have hi := Index_record o t ho hend
  have hs := Split_cons_of_Index _ _ Delimiter_ne_nil _ hi
  have hd : (o ++ Delimiter ++ t).drop (o.length + Delimiter.length) = t := by
    rw [← List.length_append, List.drop_left']
    rfl
  have htk : (o ++ Delimiter ++ t).take o.length = o := by
    rw [List.append_assoc, List.take_left']
    rfl
  rw [hd, htk, Split_without_sep t Delimiter ht] at hs
  unfold historyEntry
  rw [hs]
  rfl

theorem forall₂_exists_of_mem {R : GoString → GoMap → Prop} :
    ∀ (ls : List GoString) (es : List GoMap), List.Forall₂ R ls es →
      ∀ l ∈ ls, ∃ e ∈ es, R l e := by
  intro ls es h
  induction h with
  | nil => intro l hl; simp at hl
  | cons hr _ ih =>
    intro l hl
    rcases List.mem_cons.mp hl with e | e
    · subst e; exact ⟨_, by simp, hr⟩
    · obtain ⟨x, hx, hrx⟩ := ih l e
      exact ⟨x, by simp [hx], hrx⟩

/-- Reading after appending the record of `(o, t)`. -/
theorem readHistory_writeHistory (L : GoStrings) (file : Option GoString) (o t : GoString)
    (hfile : ∀ body, file = some body →
      ∀ line ∈ Split body (lit "\n"), Delimiter <:+: line)
    (ho1 : ¬ lit "\n" <:+: o) (ho2 : ¬ Delimiter <:+: o)
    (ht1 : ¬ lit "\n" <:+: t) (ht2 : ¬ Delimiter <:+: t)
    (hend : ¬ lit "#" <:+ o) :
    ∃ entries,
      readHistory L (writeHistory file (o ++ Delimiter ++ t)) =
        .ok [(lit "history", entries)] ∧ [(o, t)] ∈ entries := by
  have hnl : lit "\n" = [10] := by decide
  have hrec : 10 ∉ o ++ Delimiter ++ t := by
    rw [hnl, singleton_infix_iff_mem] at ho1 ht1
    have hD : 10 ∉ Delimiter := by decide
    simp only [List.mem_append, not_or]
    exact ⟨⟨ho1, hD⟩, ht1⟩
  have hinf : Delimiter <:+: o ++ Delimiter ++ t := List.infix_append o Delimiter t
  obtain ⟨body, hbody, hlines, hmem⟩ : ∃ body,
      writeHistory file (o ++ Delimiter ++ t) = some body ∧
      (∀ line ∈ Split body (lit "\n"), Delimiter <:+: line) ∧
      (o ++ Delimiter ++ t) ∈ Split body (lit "\n") := by
    cases file with
    | none =>
      refine ⟨_, rfl, ?_, ?_⟩
      · rw [Split_without_sep _ _ (by rw [hnl, singleton_infix_iff_mem]; exact hrec)]
        intro line hl
        rw [List.mem_singleton.mp hl]
        exact hinf
      · rw [Split_without_sep _ _ (by rw [hnl, singleton_infix_iff_mem]; exact hrec)]
        simp
    | some c =>
      have hsplit : Split (c ++ lit "\n" ++ (o ++ Delimiter ++ t)) (lit "\n") =
          Split c (lit "\n") ++ [o ++ Delimiter ++ t] := by
        rw [hnl, List.append_assoc]
        exact Split_append_byte _ _ hrec c.length c (Nat.le_refl _)
      refine ⟨_, rfl, ?_, ?_⟩
      · rw [hsplit]
        intro line hl
        rcases List.mem_append.mp hl with h | h
        · exact hfile c rfl line h
        · rw [List.mem_singleton.mp h]
          exact hinf
      · rw [hsplit]
        simp
  obtain ⟨sorted, entries, hread, hperm, hf, _⟩ := readHistory_all_delimited L body hlines
  obtain ⟨e, he, hre⟩ := forall₂_exists_of_mem sorted entries hf _ (hperm.mem_iff.mpr hmem)
  rw [historyEntry_record o t ho2 hend ht2] at hre
  refine ⟨entries, by rw [hbody, hread], ?_⟩
  rw [Except.ok.injEq] at hre
  rw [hre]
  exact he

/-- C7, as amended: when the log is absent or all its lines contain the delimiter,
and `o`, `t` contain neither a newline nor the delimiter, and `o` does not end
with the character of the delimiter, reading right after
`writeHistory (o ++ Delimiter ++ t)` succeeds and yields an entry binding exactly
`o` to exactly `t`. -/
theorem append_then_read (L : GoStrings) (file : Option GoString) (o t : GoString)
    (hfile : ∀ body, file = some body →
      ∀ line ∈ Split body (lit "\n"), Delimiter <:+: line)
    (ho1 : ¬ lit "\n" <:+: o) (ho2 : ¬ Delimiter <:+: o)
    (ht1 : ¬ lit "\n" <:+: t) (ht2 : ¬ Delimiter <:+: t)
    (hend : ¬ lit "#" <:+ o) :
    ∃ entries,
      readHistory L (writeHistory file (o ++ Delimiter ++ t)) =
        .ok [(lit "history", entries)] ∧ [(o, t)] ∈ entries :=
  readHistory_writeHistory L file o t hfile ho1 ho2 ht1 ht2 hend

theorem append_then_read_witness :
    ∃ entries,
      readHistory asciiStrings
          (writeHistory (some (lit "Bob######obbogo")) (lit "apple" ++ Delimiter ++ lit "gapple")) =
        .ok [(lit "history", entries)] ∧ [(lit "apple", lit "gapple")] ∈ entries :=
  append_then_read asciiStrings (some (lit "Bob######obbogo")) (lit "apple") (lit "gapple")
    (fun body hb => by cases hb; decide) (by decide) (by decide) (by decide) (by decide)
    (by decide)

/-- C7, as stated, fails for the original text "a#" and the translated text
"ga#": neither contains a newline or the delimiter, yet the record is read back
as the entry binding "a" to "#ga#". -/
theorem append_then_read_counterexample :
    (¬ lit "\n" <:+: lit "a#") ∧ (¬ Delimiter <:+: lit "a#") ∧
    (¬ lit "\n" <:+: lit "ga#") ∧ (¬ Delimiter <:+: lit "ga#") ∧
    readHistory asciiStrings (writeHistory none (lit "a#" ++ Delimiter ++ lit "ga#")) =
      .ok [(lit "history", [[(lit "a", lit "#ga#")]])] ∧
    ¬ ∃ entries,
      readHistory asciiStrings (writeHistory none (lit "a#" ++ Delimiter ++ lit "ga#")) =
        .ok [(lit "history", entries)] ∧ [(lit "a#", lit "ga#")] ∈ entries := by
  have hr : readHistory asciiStrings
      (writeHistory none (lit "a#" ++ Delimiter ++ lit "ga#")) =
      .ok [(lit "history", [[(lit "a", lit "#ga#")]])] := by rfl
  refine ⟨by decide, by decide, by decide, by decide, hr, ?_⟩
  rintro ⟨entries, he, hm⟩
  rw [hr] at he
  have e : entries = [[(lit "a", lit "#ga#")]] := by
    simp only [Except.ok.injEq, List.cons.injEq, Prod.mk.injEq, and_true, true_and] at he
    exact he.symm
  subst e
  revert hm
  decide

/-! ## The sentence handler -/

/-- C9, evaluated on "Hello, world.": the first translated word "ello,hogo" comes
back as "Ello,Hogo", with the letter after the comma in upper case as well. -/
theorem sentenceHandler_title_after_comma :
    translate asciiStrings (lit "Hello,") = .ok (lit "ello,hogo") ∧
    (sentenceHandler asciiStrings none (lit "Hello, world.")).map Prod.fst =
      .ok (lit "Ello,Hogo orldwogo.") := by
  decide

theorem scanVowel_cases : ∀ (s : GoString) (i : Nat),
    scanVowel s i = (-1, false) ∨
      ∃ k, k < s.length ∧ scanVowel s i = (((i + k : Nat) : Int), true) := by
  intro s
  induction s with
  | nil => intro i; exact Or.inl rfl
  | cons b bs ih =>
    intro i
    by_cases hb : isVowel b = true
    · exact Or.inr ⟨0, by simp, by simp [scanVowel, hb]⟩
    · rcases ih (i + 1) with h | ⟨k, hk, h⟩
      · exact Or.inl (by simp [scanVowel, hb, h])
      · refine Or.inr ⟨k + 1, by simpa using hk, ?_⟩
        simp only [scanVowel, hb]
        rw [if_neg (by simp), h]
        congr 2; omega

/-- The function `translate` returns for every word: none of its slices panics. -/
theorem translate_returns (L : GoStrings) (word : GoString) :
    ∃ r, translate L word = .ok r := by
  rcases scanVowel_cases (L.ToLower word) 0 with h | ⟨k, hk, h⟩
  · rw [← findVowel_eq_scanVowel] at h
    exact ⟨L.ToLower word, by unfold translate; simp [h]⟩
  · rw [← findVowel_eq_scanVowel, Nat.zero_add] at h
    cases k with
    | zero => exact ⟨lit "g" ++ L.ToLower word, by unfold translate; simp [h]⟩
    | succ n =>
      rw [translate_of_findVowel L word (n + 1) h (by omega) hk]
      split_ifs <;> exact ⟨_, rfl⟩

theorem translateWords_returns (L : GoStrings) : ∀ (words : List GoString) (i : Nat),
    ∃ rs, translateWords L i words = .ok rs := by
  intro words
  induction words with
  | nil => intro i; exact ⟨[], rfl⟩
  | cons w ws ih =>
    intro i
    obtain ⟨r, hr⟩ := translate_returns L w
    obtain ⟨rs, hrs⟩ := ih (i + 1)
    simp only [translateWords, hr, hrs, bind, Except.bind, pure, Except.pure]
    exact ⟨_, rfl⟩

/-- C10: `sentenceHandler` fails with the slice-bounds panic exactly when the
trimmed sentence has length zero, and returns a result exactly when it has not. -/
theorem sentenceHandler_fails_iff (L : GoStrings) (file : Option GoString)
    (sentence : GoString) :
    (sentenceHandler L file sentence = .error .sliceBounds ↔
        (L.TrimSpace sentence).length = 0) ∧
      ((∃ r, sentenceHandler L file sentence = .ok r) ↔
        (L.TrimSpace sentence).length ≠ 0) := by
  by_cases h0 : (L.TrimSpace sentence).length = 0
  · have he : sentenceHandler L file sentence = .error .sliceBounds := by
      simp [sentenceHandler, sliceFrom, slice, h0, bind, Except.bind]
    refine ⟨⟨fun _ => h0, fun _ => he⟩, ⟨?_, fun h => absurd h0 h⟩⟩
    rintro ⟨r, hr⟩
    rw [he] at hr
    cases hr
  · have hpos : 1 ≤ (L.TrimSpace sentence).length := by omega
    have e1 : ((L.TrimSpace sentence).length : Int) - 1 =
        (((L.TrimSpace sentence).length - 1 : Nat) : Int) := by omega
    have s1 : sliceFrom (L.TrimSpace sentence) (((L.TrimSpace sentence).length : Int) - 1) =
        .ok ((L.TrimSpace sentence).drop ((L.TrimSpace sentence).length - 1)) := by
      unfold sliceFrom
      rw [e1, slice_ok _ _ _ (by omega) (Nat.le_refl _)]
      simp
    have s2 : sliceTo (L.TrimSpace sentence) (((L.TrimSpace sentence).length : Int) - 1) =
        .ok ((L.TrimSpace sentence).take ((L.TrimSpace sentence).length - 1)) := by
      unfold sliceTo
      rw [e1]
      simpa using slice_ok (L.TrimSpace sentence) 0 _ (Nat.zero_le _) (Nat.sub_le _ 1)
    obtain ⟨rs, hrs⟩ := translateWords_returns L
      (Split ((L.TrimSpace sentence).take ((L.TrimSpace sentence).length - 1)) (lit " ")) 0
    have hok : ∃ r, sentenceHandler L file sentence = .ok r := by
      simp only [sentenceHandler, s1, s2, hrs, bind, Except.bind, pure, Except.pure]
      exact ⟨_, rfl⟩
    refine ⟨⟨?_, fun h => absurd h h0⟩, ⟨fun _ => h0, fun _ => hok⟩⟩
    intro he
    obtain ⟨r, hr⟩ := hok
    rw [hr] at he
    cases he

theorem sentenceHandler_fails_iff_witness :
    sentenceHandler asciiStrings none (lit "  ") = .error .sliceBounds ∧
      ∃ r, sentenceHandler asciiStrings none (lit " I see. ") = .ok r :=
  ⟨(sentenceHandler_fails_iff asciiStrings none (lit "  ")).1.mpr (by decide),
    (sentenceHandler_fails_iff asciiStrings none (lit " I see. ")).2.mpr (by decide)⟩

/-! ## Reading: absent log, malformed lines, record parsing -/

theorem historyEntries_error : ∀ (lines : List GoString),
    (∃ line ∈ lines, ¬ Delimiter <:+: line) →
      historyEntries lines = .error .indexRange := by
  intro lines
  induction lines with
  | nil => intro h; simp at h
  | cons l ls ih =>
    intro h
    by_cases hl : Delimiter <:+: l
    · obtain ⟨m, b, rest, _, _, he⟩ := historyEntry_with_delimiter l hl
      have h2 : ∃ line ∈ ls, ¬ Delimiter <:+: line := by
        obtain ⟨x, hx, hxd⟩ := h
        rcases List.mem_cons.mp hx with e | e
        · subst e; exact absurd hl hxd
        · exact ⟨x, e, hxd⟩
      simp only [historyEntries, he, ih h2, bind, Except.bind]
    · simp only [historyEntries, historyEntry_without_delimiter l hl, bind, Except.bind]

/-- Reading a log one of whose lines lacks the delimiter panics on `records[1]`. -/
theorem readHistory_some_undelimited (L : GoStrings) (body : GoString)
    (h : ∃ line ∈ Split body (lit "\n"), ¬ Delimiter <:+: line) :
    readHistory L (some body) = .error .indexRange := by
  have hp := sortSlice_perm (fun a b => strLess (L.ToLower a) (L.ToLower b))
    (Split body (lit "\n"))
  obtain ⟨line, hl, hd⟩ := h
  have he := historyEntries_error _ ⟨line, hp.mem_iff.mpr hl, hd⟩
  simp only [readHistory, he, bind, Except.bind]

/-- C13: `readHistory` on an existing log fails exactly when some raw line lacks
the delimiter (the index `records[1]` is then out of range); when every line has
it, one entry per line is returned. -/
theorem readHistory_fails_iff (L : GoStrings) (body : GoString) :
    ((∃ p, readHistory L (some body) = .error p) ↔
        ∃ line ∈ Split body (lit "\n"), ¬ Delimiter <:+: line) ∧
      ((∃ line ∈ Split body (lit "\n"), ¬ Delimiter <:+: line) →
        readHistory L (some body) = .error .indexRange) ∧
      ((∀ line ∈ Split body (lit "\n"), Delimiter <:+: line) →
        ∃ entries, readHistory L (some body) = .ok [(lit "history", entries)] ∧
          entries.length = (Split body (lit "\n")).length) := by
  have hgood : (∀ line ∈ Split body (lit "\n"), Delimiter <:+: line) →
      ∃ entries, readHistory L (some body) = .ok [(lit "history", entries)] ∧
        entries.length = (Split body (lit "\n")).length := by
    intro h
    obtain ⟨sorted, entries, hr, hp, hf, _⟩ := readHistory_all_delimited L body h
    exact ⟨entries, hr, by rw [← hf.length_eq, hp.length_eq]⟩
  refine ⟨⟨?_, fun h => ⟨_, readHistory_some_undelimited L body h⟩⟩,
    readHistory_some_undelimited L body, hgood⟩
  rintro ⟨p, hp⟩
  by_contra hn
  have hall : ∀ line ∈ Split body (lit "\n"), Delimiter <:+: line := by
    intro line hl
    by_contra hd
    exact hn ⟨line, hl, hd⟩
  obtain ⟨entries, hr, _⟩ := hgood hall
  rw [hr] at hp
  cases hp

theorem readHistory_fails_iff_witness :
    readHistory asciiStrings (some (lit "Bob######obbogo\nalice")) = .error .indexRange ∧
      ∃ entries,
        readHistory asciiStrings (some (lit "Bob######obbogo\nalice######galice")) =
          .ok [(lit "history", entries)] ∧
        entries.length = (Split (lit "Bob######obbogo\nalice######galice") (lit "\n")).length :=
  ⟨(readHistory_fails_iff asciiStrings (lit "Bob######obbogo\nalice")).2.1
      ⟨lit "alice", by decide, by decide⟩,
    (readHistory_fails_iff asciiStrings (lit "Bob######obbogo\nalice######galice")).2.2
      (by decide)⟩

/-- C16: `readHistory` on an absent log returns the empty map, without failing. -/
theorem readHistory_absent (L : GoStrings) : readHistory L none = .ok [] :=
  rfl

/-- The entry of a line with the delimiter: the key ends at the first delimiter,
the value ends at the next one, if there is one. -/
theorem historyEntry_value (line : GoString) (h : Delimiter <:+: line) :
    ∃ m, Index line Delimiter = some m ∧
      historyEntry line = .ok [(line.take m,
        match Index (line.drop (m + Delimiter.length)) Delimiter with
        | none => line.drop (m + Delimiter.length)
        | some k => (line.drop (m + Delimiter.length)).take k)] := by
  cases hi : Index line Delimiter with
  | none => exact absurd h ((Index_eq_none_iff line Delimiter).mp hi)
  | some m =>
    refine ⟨m, rfl, ?_⟩
    have hs := Split_cons_of_Index line Delimiter Delimiter_ne_nil m hi
    cases hk : Index (line.drop (m + Delimiter.length)) Delimiter with
    | none =>
      rw [Split_without_sep _ _ ((Index_eq_none_iff _ _).mp hk)] at hs
      unfold historyEntry
      rw [hs]
      rfl
    | some k =>
      rw [Split_cons_of_Index _ Delimiter Delimiter_ne_nil k hk] at hs
      unfold historyEntry
      rw [hs]
      rfl

/-- C14, as amended: for every stored line that contains the delimiter, the entry
`readHistory` returns has as original the text before the first delimiter, and as
translated the text between that delimiter and the next one after it, or the
whole remaining text when there is no further delimiter. -/
theorem readHistory_entry_fields (L : GoStrings) (body : GoString)
    (h : ∀ line ∈ Split body (lit "\n"), Delimiter <:+: line) :
    ∃ sorted entries,
      readHistory L (some body) = .ok [(lit "history", entries)] ∧
      sorted.Perm (Split body (lit "\n")) ∧
      List.Forall₂ (fun line entry => ∃ m, Index line Delimiter = some m ∧
        entry = [(line.take m,
          match Index (line.drop (m + Delimiter.length)) Delimiter with
          | none => line.drop (m + Delimiter.length)
          | some k => (line.drop (m + Delimiter.length)).take k)]) sorted entries := by
  obtain ⟨sorted, entries, hr, hp, hf, _⟩ := readHistory_all_delimited L body h
  refine ⟨sorted, entries, hr, hp, hf.imp ?_⟩
  intro line entry he
  by_cases hd : Delimiter <:+: line
  · obtain ⟨m, hm, hv⟩ := historyEntry_value line hd
    rw [hv, Except.ok.injEq] at he
    exact ⟨m, hm, he.symm⟩
  · rw [historyEntry_without_delimiter line hd] at he
    cases he

theorem readHistory_entry_fields_witness :
    ∃ sorted entries,
      readHistory asciiStrings (some (lit "a######b######c")) =
        .ok [(lit "history", entries)] ∧
      sorted.Perm (Split (lit "a######b######c") (lit "\n")) ∧
      List.Forall₂ (fun line entry => ∃ m, Index line Delimiter = some m ∧
        entry = [(line.take m,
          match Index (line.drop (m + Delimiter.length)) Delimiter with
          | none => line.drop (m + Delimiter.length)
          | some k => (line.drop (m + Delimiter.length)).take k)]) sorted entries :=
  readHistory_entry_fields asciiStrings (lit "a######b######c") (by decide)

/-- C14, as stated, fails for the stored line "a######b######c": the text after
the first delimiter is "b######c", the entry returned binds "a" to "b". -/
theorem readHistory_entry_fields_counterexample :
    Delimiter <:+: lit "a######b######c" ∧
    Index (lit "a######b######c") Delimiter = some 1 ∧
    (lit "a######b######c").drop (1 + Delimiter.length) = lit "b######c" ∧
    readHistory asciiStrings (some (lit "a######b######c")) =
      .ok [(lit "history", [[(lit "a", lit "b")]])] ∧
    lit "b" ≠ lit "b######c" :=
  ⟨by decide, by decide, by decide, by rfl, by decide⟩

/-- C15, as amended: `readHistory` puts every record in a map of its own, so
records with the same original text are all kept: there are as many entries as
stored lines, every line has its entry, and every entry has one key. -/
theorem readHistory_keeps_every_line (L : GoStrings) (body : GoString)
    (h : ∀ line ∈ Split body (lit "\n"), Delimiter <:+: line) :
    ∃ entries,
      readHistory L (some body) = .ok [(lit "history", entries)] ∧
      entries.length = (Split body (lit "\n")).length ∧
      (∀ line ∈ Split body (lit "\n"), ∃ entry ∈ entries, historyEntry line = .ok entry) ∧
      ∀ entry ∈ entries, entry.length = 1 := by
  obtain ⟨sorted, entries, hr, hp, hf, _⟩ := readHistory_all_delimited L body h
  refine ⟨entries, hr, by rw [← hf.length_eq, hp.length_eq], ?_, ?_⟩
  · intro line hl
    exact forall₂_exists_of_mem sorted entries hf line (hp.mem_iff.mpr hl)
  · intro entry hentry
    have key : ∀ (ls : List GoString) (es : List GoMap),
        List.Forall₂ (fun line e => historyEntry line = .ok e) ls es →
          ∀ e ∈ es, e.length = 1 := by
      intro ls es hfe
      induction hfe with
      | nil => intro e he; simp at he
      | @cons l e ls es hle _ ih =>
        intro x hx
        rcases List.mem_cons.mp hx with e1 | e1
        · subst e1
          by_cases hd : Delimiter <:+: l
          · obtain ⟨m, _, hv⟩ := historyEntry_value l hd
            rw [hv, Except.ok.injEq] at hle
            rw [← hle]
            rfl
          · rw [historyEntry_without_delimiter l hd] at hle
            cases hle
        · exact ih x e1
    exact key sorted entries hf entry hentry

theorem readHistory_keeps_every_line_witness :
    ∃ entries,
      readHistory asciiStrings (some (lit "a######x\na######y")) =
        .ok [(lit "history", entries)] ∧
      entries.length = (Split (lit "a######x\na######y") (lit "\n")).length ∧
      (∀ line ∈ Split (lit "a######x\na######y") (lit "\n"),
        ∃ entry ∈ entries, historyEntry line = .ok entry) ∧
      ∀ entry ∈ entries, entry.length = 1 :=
  readHistory_keeps_every_line asciiStrings (lit "a######x\na######y") (by decide)

/-- C15, as stated, fails for the log with the two lines "a######x" and
"a######y": both have the original text "a", and two entries are returned. -/
theorem readHistory_drops_counterexample :
    Split (lit "a######x\na######y") (lit "\n") = [lit "a######x", lit "a######y"] ∧
    readHistory asciiStrings (some (lit "a######x\na######y")) =
      .ok [(lit "history", [[(lit "a", lit "x")], [(lit "a", lit "y")]])] ∧
    ¬ ([[(lit "a", lit "x")], [(lit "a", lit "y")]] : List GoMap).length <
        (Split (lit "a######x\na######y") (lit "\n")).length :=
  ⟨by decide, by rfl, by decide⟩

/-! ## Evaluations and totality -/

/-- C17, as amended: the sentence handler applied to "I see." returns
"Gi eesogo.". -/
theorem sentenceHandler_I_see :
    (sentenceHandler asciiStrings none (lit "I see.")).map Prod.fst =
      .ok (lit "Gi eesogo.") := by
  decide

/-- C17, as stated, fails: the sentence handler applied to "I see." does not
return "Gisee."; "i" is translated to "gi" and "see" to "eesogo". -/
theorem sentenceHandler_I_see_counterexample :
    translate asciiStrings (lit "I") = .ok (lit "gi") ∧
    translate asciiStrings (lit "see") = .ok (lit "eesogo") ∧
    (sentenceHandler asciiStrings none (lit "I see.")).map Prod.fst ≠
      .ok (lit "Gisee.") := by
  decide

/-- C18, as amended: `translate` applied to the empty string returns the empty
string; the vowel scan finds nothing and no slice of the word is evaluated. -/
theorem translate_empty (L : GoStrings) (hL : L.ToLower (lit "") = lit "") :
    findVowel (lit "") = (-1, false) ∧ translate L (lit "") = .ok (lit "") := by
  refine ⟨rfl, ?_⟩
  unfold translate
  rw [hL]
  rfl

theorem translate_empty_witness :
    findVowel (lit "") = (-1, false) ∧ translate asciiStrings (lit "") = .ok (lit "") :=
  translate_empty asciiStrings rfl

/-- C18, as stated, fails: `translate` applied to the empty string does not
panic. -/
theorem translate_empty_counterexample :
    ¬ ∃ p, translate asciiStrings (lit "") = .error p := by
  rintro ⟨p, hp⟩
  have h : translate asciiStrings (lit "") = .ok (lit "") := rfl
  rw [h] at hp
  cases hp

/-- C20: `translate` is total: for every input none of its slice expressions is
out of range, and a string is returned. -/
theorem translate_total (L : GoStrings) (word : GoString) :
    ∃ r, translate L word = .ok r :=
  translate_returns L word

/-! ## Append order -/

theorem strLess_trichotomy : ∀ (a b : GoString),
    strLess a b = false → strLess b a = false → a = b := by
  intro a
  induction a with
  | nil =>
    intro b h1 _
    cases b with
    | nil => rfl
    | cons y ys => simp [strLess] at h1
  | cons x xs ih =>
    intro b h1 h2
    cases b with
    | nil => simp [strLess] at h2
    | cons y ys =>
      simp only [strLess] at h1 h2
      split_ifs at h1 h2
      have hxy : x = y := by omega
      rw [hxy, ih ys h1 h2]

/-- Two sorted permutations of each other are equal when the order is
antisymmetric on their elements. -/
theorem sorted_perm_unique (r : GoString → GoString → Prop) :
    ∀ (l1 l2 : List GoString), l1.Perm l2 → l1.Pairwise r → l2.Pairwise r →
      (∀ a ∈ l1, ∀ b ∈ l1, r a b → r b a → a = b) → l1 = l2 := by
  intro l1
  induction l1 with
  | nil => intro l2 hp _ _ _; exact hp.nil_eq
  | cons a l1 ih =>
    intro l2 hp h1 h2 hanti
    cases l2 with
    | nil => exact absurd hp.eq_nil (by simp)
    | cons b l2 =>
      rw [List.pairwise_cons] at h1 h2
      have hab : a = b := by
        have hb : b ∈ a :: l1 := hp.mem_iff.mpr (by simp)
        have ha : a ∈ b :: l2 := hp.mem_iff.mp (by simp)
        rcases List.mem_cons.mp hb with e | e
        · exact e.symm
        · rcases List.mem_cons.mp ha with e2 | e2
          · exact e2
          · exact hanti a (by simp) b (by simp [e]) (h1.1 b e) (h2.1 a e2)
      subst hab
      rw [ih l2 hp.cons_inv h1.2 h2.2
        (fun x hx y hy => hanti x (by simp [hx]) y (by simp [hy]))]

/-- Sorting by pairwise distinct lowercase forms does not depend on the order
of the input. -/
theorem sortSlice_of_perm (f : GoString → GoString) (l1 l2 : List GoString)
    (hp : l1.Perm l2) (hd : (l1.map f).Nodup) :
    sortSlice (fun a b => strLess (f a) (f b)) l1 =
      sortSlice (fun a b => strLess (f a) (f b)) l2 := by
  have p1 := sortSlice_perm (fun a b => strLess (f a) (f b)) l1
  have p2 := sortSlice_perm (fun a b => strLess (f a) (f b)) l2
  apply sorted_perm_unique (fun a b => strLe (f a) (f b) = true) _ _
    (p1.trans (hp.trans p2.symm)) (sortSlice_sorted f l1) (sortSlice_sorted f l2)
  intro a ha b hb hab hba
  have ha1 : a ∈ l1 := p1.mem_iff.mp ha
  have hb1 : b ∈ l1 := p1.mem_iff.mp hb
  apply List.inj_on_of_nodup_map hd ha1 hb1
  simp only [strLe, Bool.not_eq_true'] at hab hba
  exact strLess_trichotomy _ _ hba hab

/-- The lines of a log after appending newline-free records to existing content. -/
theorem foldl_writeHistory_some : ∀ (rs : List GoString) (c : GoString),
    (∀ r ∈ rs, ¬ lit "\n" <:+: r) →
      ∃ body, rs.foldl writeHistory (some c) = some body ∧
        Split body (lit "\n") = Split c (lit "\n") ++ rs := by
  have hnl : lit "\n" = [10] := by decide
  intro rs
  induction rs with
  | nil => intro c _; exact ⟨c, rfl, by simp⟩
  | cons r rs ih =>
    intro c h
    have hr : (10 : Nat) ∉ r := by
      have := h r (by simp)
      rwa [hnl, singleton_infix_iff_mem] at this
    obtain ⟨body, hb, hs⟩ := ih (c ++ lit "\n" ++ r) (fun x hx => h x (by simp [hx]))
    refine ⟨body, by simpa [writeHistory] using hb, ?_⟩
    rw [hs, hnl, List.append_assoc, List.singleton_append,
      Split_append_byte 10 r hr c.length c (Nat.le_refl _)]
    simp

/-- The lines of a log built from nothing by appending newline-free records. -/
theorem foldl_writeHistory_none (r : GoString) (rs : List GoString)
    (h : ∀ x ∈ r :: rs, ¬ lit "\n" <:+: x) :
    ∃ body, (r :: rs).foldl writeHistory none = some body ∧
      Split body (lit "\n") = r :: rs := by
  obtain ⟨body, hb, hs⟩ := foldl_writeHistory_some rs r (fun x hx => h x (by simp [hx]))
  refine ⟨body, by simpa [writeHistory] using hb, ?_⟩
  rw [hs, Split_without_sep r _ (h r (by simp))]
  rfl

/-- Reading after appending records with distinct lowercase forms, in two orders. -/
theorem readHistory_foldl_writeHistory (L : GoStrings) (records permuted : List GoString)
    (hperm : records.Perm permuted)
    (hdel : ∀ r ∈ records, Delimiter <:+: r)
    (hnl : ∀ r ∈ records, ¬ lit "\n" <:+: r)
    (hdistinct : (records.map L.ToLower).Nodup) :
    ∃ data, readHistory L (records.foldl writeHistory none) = .ok data ∧
      readHistory L (permuted.foldl writeHistory none) = .ok data := by
  cases records with
  | nil =>
    have e : permuted = [] := hperm.nil_eq.symm
    subst e
    exact ⟨[], rfl, rfl⟩
  | cons r rs =>
    cases permuted with
    | nil => exact absurd hperm.eq_nil (by simp)
    | cons q qs =>
      obtain ⟨b1, hb1, hs1⟩ := foldl_writeHistory_none r rs hnl
      obtain ⟨b2, hb2, hs2⟩ := foldl_writeHistory_none q qs
        (fun x hx => hnl x (hperm.mem_iff.mpr hx))
      have hall : ∀ line ∈ Split b1 (lit "\n"), Delimiter <:+: line := by
        rw [hs1]; exact hdel
      obtain ⟨_, entries, hr, _, _, _⟩ := readHistory_all_delimited L b1 hall
      refine ⟨_, by rw [hb1, hr], ?_⟩
      rw [hb2, ← hr]
      simp only [readHistory, hs1, hs2]
      rw [sortSlice_of_perm L.ToLower _ _ hperm hdistinct]

/-- C12: for records that contain the delimiter and no newline and have pairwise
distinct lowercase forms, appending them to an absent log in one order or in a
permuted order and then reading returns the same sequence. -/
theorem append_order_independent (L : GoStrings) (records permuted : List GoString)
    (hperm : records.Perm permuted)
    (hdel : ∀ r ∈ records, Delimiter <:+: r)
    (hnl : ∀ r ∈ records, ¬ lit "\n" <:+: r)
    (hdistinct : (records.map L.ToLower).Nodup) :
    ∃ data, readHistory L (records.foldl writeHistory none) = .ok data ∧
      readHistory L (permuted.foldl writeHistory none) = .ok data :=
  readHistory_foldl_writeHistory L records permuted hperm hdel hnl hdistinct

theorem append_order_independent_witness :
    ∃ data,
      readHistory asciiStrings
        ([lit "Bob######obbogo", lit "alice######galice", lit "Zed######edzogo"].foldl
          writeHistory none) = .ok data ∧
      readHistory asciiStrings
        ([lit "Zed######edzogo", lit "Bob######obbogo", lit "alice######galice"].foldl
          writeHistory none) = .ok data :=
  append_order_independent asciiStrings
    [lit "Bob######obbogo", lit "alice######galice", lit "Zed######edzogo"]
    [lit "Zed######edzogo", lit "Bob######obbogo", lit "alice######galice"]
    (by decide) (by decide) (by decide) (by decide)

/-- The records of "Bob", "alice" and "Zed", appended in this order, are read
back as the alice-line, the Bob-line, the Zed-line. -/
theorem append_order_example :
    readHistory asciiStrings
      ([lit "Bob######obbogo", lit "alice######galice", lit "Zed######edzogo"].foldl
        writeHistory none) =
      .ok [(lit "history", [[(lit "alice", lit "galice")], [(lit "Bob", lit "obbogo")],
        [(lit "Zed", lit "edzogo")]])] := by
  rfl

/-! ## Order of the originals -/

theorem Delimiter_eq_cons : Delimiter = 35 :: [35, 35, 35, 35, 35] := by decide

/-- A text of ASCII letters neither contains the delimiter nor ends with its
character. -/
theorem letters_without_hash (o : GoString)
    (ho : ∀ b ∈ o, (0x41 ≤ b ∧ b ≤ 0x5A) ∨ (0x61 ≤ b ∧ b ≤ 0x7A)) :
    (¬ Delimiter <:+: o) ∧ ¬ lit "#" <:+ o := by
  have h35 : (35 : Nat) ∉ o := by
    intro h
    have := ho 35 h
    omega
  constructor
  · intro h
    exact h35 (h.subset (by decide))
  · intro h
    exact h35 (h.subset (by decide))

theorem historyEntries_letters : ∀ (lines : List GoString),
    (∀ line ∈ lines, ∃ o t, line = o ++ Delimiter ++ t ∧
      ∀ b ∈ o, (0x41 ≤ b ∧ b ≤ 0x5A) ∨ (0x61 ≤ b ∧ b ≤ 0x7A)) →
    ∃ pairs : List (GoString × GoString),
      historyEntries lines = .ok (pairs.map (fun p => [p])) ∧
      List.Forall₂ (fun line p => ∃ t, line = p.1 ++ Delimiter ++ t ∧
        ∀ b ∈ p.1, (0x41 ≤ b ∧ b ≤ 0x5A) ∨ (0x61 ≤ b ∧ b ≤ 0x7A)) lines pairs := by
  intro lines
  induction lines with
  | nil => intro _; exact ⟨[], rfl, List.Forall₂.nil⟩
  | cons l ls ih =>
    intro h
    obtain ⟨o, t, hl, ho⟩ := h l (by simp)
    obtain ⟨pairs, hps, hf⟩ := ih (fun x hx => h x (by simp [hx]))
    obtain ⟨m, b, rest, hi, _, he⟩ :=
      historyEntry_with_delimiter l (hl ▸ List.infix_append o Delimiter t)
    have hno := letters_without_hash o ho
    have hm : m = o.length := by
      have h2 := Index_record o t hno.1 hno.2
      rw [← hl, hi] at h2
      exact Option.some.inj h2
    have htake : l.take m = o := by
      rw [hm, hl, List.append_assoc, List.take_left']
      rfl
    rw [htake] at he
    refine ⟨(o, b) :: pairs, ?_, List.Forall₂.cons ⟨t, hl, ho⟩ hf⟩
    simp only [historyEntries, he, hps, bind, Except.bind, pure, Except.pure, List.map_cons]

/-- Comparing two texts of bytes above the delimiter character, each followed by
that character, compares the texts. -/
theorem strLess_append_hash : ∀ (b a u v : GoString),
    (∀ x ∈ a, 35 < x) → (∀ x ∈ b, 35 < x) → strLess b a = true →
      strLess (b ++ 35 :: v) (a ++ 35 :: u) = true := by
  intro b
  induction b with
  | nil =>
    intro a u v ha _ h
    cases a with
    | nil => simp [strLess] at h
    | cons a0 as =>
      have := ha a0 (by simp)
      simp only [List.nil_append, List.cons_append, strLess]
      rw [if_pos this]
  | cons b0 bs ih =>
    intro a u v ha hb h
    cases a with
    | nil => simp [strLess] at h
    | cons a0 as =>
      simp only [List.cons_append, strLess] at h ⊢
      split_ifs at h ⊢ with h1 h2
      · rfl
      · exact ih as u v (fun x hx => ha x (by simp [hx])) (fun x hx => hb x (by simp [hx])) h

theorem pairwise_of_forall₂ {R : GoString → GoString × GoString → Prop}
    {S : GoString → GoString → Prop}
    {T : GoString × GoString → GoString × GoString → Prop}
    (hRST : ∀ l1 l2 p1 p2, R l1 p1 → R l2 p2 → S l1 l2 → T p1 p2) :
    ∀ (ls : List GoString) (ps : List (GoString × GoString)),
      List.Forall₂ R ls ps → ls.Pairwise S → ps.Pairwise T := by
  intro ls ps hf
  induction hf with
  | nil => intro _; exact List.Pairwise.nil
  | @cons l p ls ps hlp hrest ih =>
    intro hS
    rw [List.pairwise_cons] at hS
    rw [List.pairwise_cons]
    refine ⟨?_, ih hS.2⟩
    intro q hq
    have key : ∀ (ls2 : List GoString) (ps2 : List (GoString × GoString)),
        List.Forall₂ R ls2 ps2 → ∀ q ∈ ps2, ∃ l2 ∈ ls2, R l2 q := by
      intro ls2 ps2 h2
      induction h2 with
      | nil => intro q hq; simp at hq
      | @cons l3 p3 ls3 ps3 h3 _ ih3 =>
        intro q hq
        rcases List.mem_cons.mp hq with e | e
        · subst e; exact ⟨l3, by simp, h3⟩
        · obtain ⟨l2, hl2, hr2⟩ := ih3 q e
          exact ⟨l2, by simp [hl2], hr2⟩
    obtain ⟨l2, hl2, hr2⟩ := key ls ps hrest q hq
    exact hRST l l2 p q hlp hr2 (hS.1 l2 hl2)

theorem asciiLowerByte_letter_gt (o : GoString)
    (ho : ∀ b ∈ o, (0x41 ≤ b ∧ b ≤ 0x5A) ∨ (0x61 ≤ b ∧ b ≤ 0x7A)) :
    ∀ x ∈ o.map asciiLowerByte, 35 < x := by
  intro x hx
  obtain ⟨b, hb, rfl⟩ := List.mem_map.mp hx
  have := ho b hb
  unfold asciiLowerByte
  split_ifs <;> omega

/-- Reading a log whose lines are `o ++ Delimiter ++ t` with `o` made of ASCII
letters: the originals come back in case-insensitive order. -/
theorem readHistory_letters (L : GoStrings) (body : GoString)
    (hL : ∀ o t : GoString, (∀ b ∈ o, (0x41 ≤ b ∧ b ≤ 0x5A) ∨ (0x61 ≤ b ∧ b ≤ 0x7A)) →
      L.ToLower (o ++ Delimiter ++ t) = o.map asciiLowerByte ++ Delimiter ++ L.ToLower t)
    (hform : ∀ line ∈ Split body (lit "\n"), ∃ o t, line = o ++ Delimiter ++ t ∧
      ∀ b ∈ o, (0x41 ≤ b ∧ b ≤ 0x5A) ∨ (0x61 ≤ b ∧ b ≤ 0x7A)) :
    ∃ (sorted : List GoString) (pairs : List (GoString × GoString)),
      readHistory L (some body) = .ok [(lit "history", pairs.map (fun p => [p]))] ∧
      sorted.Perm (Split body (lit "\n")) ∧
      List.Forall₂ (fun line p => ∃ t, line = p.1 ++ Delimiter ++ t) sorted pairs ∧
      pairs.Pairwise
        (fun p q => strLe (p.1.map asciiLowerByte) (q.1.map asciiLowerByte) = true) := by
  have hp := sortSlice_perm (fun a b => strLess (L.ToLower a) (L.ToLower b))
    (Split body (lit "\n"))
  have hs := sortSlice_sorted L.ToLower (Split body (lit "\n"))
  obtain ⟨pairs, he, hf⟩ := historyEntries_letters _
    (fun line hl => hform line (hp.mem_iff.mp hl))
  refine ⟨_, pairs, ?_, hp, hf.imp (fun _ _ ⟨t, h1, _⟩ => ⟨t, h1⟩), ?_⟩
  · simp only [readHistory, he, bind, Except.bind, pure, Except.pure]
  · refine pairwise_of_forall₂ ?_ _ pairs hf hs
    rintro l1 l2 p1 p2 ⟨t1, e1, h1⟩ ⟨t2, e2, h2⟩ hle
    rw [e1, e2, hL p1.1 t1 h1, hL p2.1 t2 h2] at hle
    simp only [strLe, Bool.not_eq_true', Bool.not_eq_eq_eq_not, Bool.not_true] at hle ⊢
    cases hc : strLess (p2.1.map asciiLowerByte) (p1.1.map asciiLowerByte) with
    | false => rfl
    | true =>
      have := strLess_append_hash _ _ ([35, 35, 35, 35, 35] ++ L.ToLower t1)
        ([35, 35, 35, 35, 35] ++ L.ToLower t2)
        (asciiLowerByte_letter_gt p1.1 h1) (asciiLowerByte_letter_gt p2.1 h2) hc
      rw [Delimiter_eq_cons] at hle
      simp only [List.append_assoc, List.cons_append] at hle this
      rw [this] at hle
      cases hle

theorem asciiStrings_ToLower_record (o t : GoString) :
    asciiStrings.ToLower (o ++ Delimiter ++ t) =
      o.map asciiLowerByte ++ Delimiter ++ asciiStrings.ToLower t := by
  have hD : Delimiter.map asciiLowerByte = Delimiter := by decide
  simp only [asciiStrings, List.map_append, hD]

/-- C19: when every line of an existing log is `o ++ Delimiter ++ t` with `o` made
of ASCII letters only, the entries `readHistory` returns are in non-decreasing
case-insensitive lexicographic order of their original text. `ToLower` is taken
to lower-case the ASCII letters before the delimiter and to act on the rest
separately. -/
theorem readHistory_sorted_by_original (L : GoStrings) (body : GoString)
    (hL : ∀ o t : GoString, (∀ b ∈ o, (0x41 ≤ b ∧ b ≤ 0x5A) ∨ (0x61 ≤ b ∧ b ≤ 0x7A)) →
      L.ToLower (o ++ Delimiter ++ t) = o.map asciiLowerByte ++ Delimiter ++ L.ToLower t)
    (hform : ∀ line ∈ Split body (lit "\n"), ∃ o t, line = o ++ Delimiter ++ t ∧
      ∀ b ∈ o, (0x41 ≤ b ∧ b ≤ 0x5A) ∨ (0x61 ≤ b ∧ b ≤ 0x7A)) :
    ∃ (sorted : List GoString) (pairs : List (GoString × GoString)),
      readHistory L (some body) = .ok [(lit "history", pairs.map (fun p => [p]))] ∧
      sorted.Perm (Split body (lit "\n")) ∧
      List.Forall₂ (fun line p => ∃ t, line = p.1 ++ Delimiter ++ t) sorted pairs ∧
      pairs.Pairwise
        (fun p q => strLe (p.1.map asciiLowerByte) (q.1.map asciiLowerByte) = true) :=
  readHistory_letters L body hL hform

theorem readHistory_sorted_by_original_witness :
    ∃ (sorted : List GoString) (pairs : List (GoString × GoString)),
      readHistory asciiStrings (some (lit "Bob######obbogo\nalice######galice")) =
        .ok [(lit "history", pairs.map (fun p => [p]))] ∧
      sorted.Perm (Split (lit "Bob######obbogo\nalice######galice") (lit "\n")) ∧
      List.Forall₂ (fun line p => ∃ t, line = p.1 ++ Delimiter ++ t) sorted pairs ∧
      pairs.Pairwise
        (fun p q => strLe (p.1.map asciiLowerByte) (q.1.map asciiLowerByte) = true) :=
  readHistory_sorted_by_original asciiStrings (lit "Bob######obbogo\nalice######galice")
    (fun o t _ => asciiStrings_ToLower_record o t)
    (fun line hl => by
      have hs : Split (lit "Bob######obbogo\nalice######galice") (lit "\n") =
          [lit "Bob######obbogo", lit "alice######galice"] := by decide
      rw [hs] at hl
      rcases List.mem_cons.mp hl with e | e
      · exact ⟨lit "Bob", lit "obbogo", by rw [e]; decide, by decide⟩
      · exact ⟨lit "alice", lit "galice", by rw [List.mem_singleton.mp e]; decide, by decide⟩)

/-! ## The shape of the translated sentence -/

theorem Join_eq_intercalate (sep : GoString) : ∀ (xs : List GoString),
    Join xs sep = List.intercalate sep xs := by
  intro xs
  induction xs with
  | nil => simp [Join, List.intercalate]
  | cons a rest ih =>
    cases rest with
    | nil => simp [Join, List.intercalate, List.intersperse]
    | cons b rest2 =>
      rw [Join, ih]
      simp [List.intercalate, List.intersperse]

theorem translateWords_succ (L : GoStrings) : ∀ (words : List GoString) (i : Nat),
    ∃ ts, translateWords L (i + 1) words = .ok ts ∧
      List.Forall₂ (fun w t => translate L w = .ok t) words ts := by
  intro words
  induction words with
  | nil => intro i; exact ⟨[], rfl, List.Forall₂.nil⟩
  | cons w ws ih =>
    intro i
    obtain ⟨t, ht⟩ := translate_returns L w
    obtain ⟨ts, hts, hf⟩ := ih (i + 1)
    refine ⟨t :: ts, ?_, List.Forall₂.cons ht hf⟩
    simp only [translateWords, ht, hts, bind, Except.bind, pure, Except.pure]
    simp

theorem asciiLowerByte_asciiUpperByte (b : Nat) :
    asciiLowerByte (asciiUpperByte b) = asciiLowerByte b := by
  unfold asciiLowerByte asciiUpperByte
  split_ifs <;> omega

theorem asciiTitleFrom_lower : ∀ (x : GoString) (prev : Nat),
    (asciiTitleFrom prev x).map asciiLowerByte = x.map asciiLowerByte := by
  intro x
  induction x with
  | nil => intro _; rfl
  | cons b bs ih =>
    intro prev
    simp only [asciiTitleFrom, List.map_cons, ih b]
    split_ifs
    · rw [asciiLowerByte_asciiUpperByte]
    · rfl

/-- The sentence sent back: the translations of the pieces joined by single
spaces, the first one passed through `Title`, then the last byte. -/
theorem sentenceHandler_response (L : GoStrings) (file : Option GoString)
    (sentence : GoString) (hne : (L.TrimSpace sentence).length ≠ 0) :
    ∃ (body : GoString) (e : Nat) (w0 : GoString) (ws : List GoString)
      (t0 : GoString) (ts : List GoString),
      L.TrimSpace sentence = body ++ [e] ∧
      Split body (lit " ") = w0 :: ws ∧
      translate L w0 = .ok t0 ∧
      List.Forall₂ (fun w t => translate L w = .ok t) ws ts ∧
      (sentenceHandler L file sentence).map Prod.fst =
        .ok (Join (L.Title t0 :: ts) (lit " ") ++ [e]) := by
  generalize htr : L.TrimSpace sentence = tr at hne
  have hpos : 1 ≤ tr.length := by omega
  have e1 : (tr.length : Int) - 1 = ((tr.length - 1 : Nat) : Int) := by omega
  have s1 : sliceFrom tr ((tr.length : Int) - 1) = .ok (tr.drop (tr.length - 1)) := by
    unfold sliceFrom
    rw [e1, slice_ok _ _ _ (by omega) (Nat.le_refl _)]
    simp
  have s2 : sliceTo tr ((tr.length : Int) - 1) = .ok (tr.take (tr.length - 1)) := by
    unfold sliceTo
    rw [e1]
    simpa using slice_ok tr 0 _ (Nat.zero_le _) (Nat.sub_le _ 1)
  obtain ⟨e, he⟩ : ∃ e, tr.drop (tr.length - 1) = [e] := by
    have hl : (tr.drop (tr.length - 1)).length = 1 := by
      rw [List.length_drop]; omega
    match h : tr.drop (tr.length - 1), hl with
    | [e], _ => exact ⟨e, rfl⟩
  obtain ⟨w0, ws, hsplit⟩ := splitLoop_ne_nil (lit " ") (tr.take (tr.length - 1)).length
    (tr.take (tr.length - 1))
  obtain ⟨t0, ht0⟩ := translate_returns L w0
  obtain ⟨ts, hts, hf⟩ := translateWords_succ L ws 0
  refine ⟨tr.take (tr.length - 1), e, w0, ws, t0, ts, ?_, hsplit, ht0, hf, ?_⟩
  · rw [← he, List.take_append_drop]
  · have hsplit2 : Split (tr.take (tr.length - 1)) (lit " ") = w0 :: ws := hsplit
    simp only [sentenceHandler, htr, s1, s2, hsplit2, translateWords, ht0, hts, he, bind,
      Except.bind, pure, Except.pure, Except.map]
    simp

/-- Every rune `titleRunes` writes is the rune read or its title case. -/
theorem titleRunes_forall₂ (isSeparator : Nat → Bool) (ToTitle : Nat → Nat) :
    ∀ (rs : List Nat) (prev : Nat),
      List.Forall₂ (fun r c => c = r ∨ c = ToTitle r) rs
        (titleRunes isSeparator ToTitle prev rs) := by
  intro rs
  induction rs with
  | nil => intro _; exact List.Forall₂.nil
  | cons r rs ih =>
    intro prev
    simp only [titleRunes]
    refine List.Forall₂.cons ?_ (ih r)
    split_ifs
    · exact Or.inr rfl
    · exact Or.inl rfl

theorem rangeFrom_ascii : ∀ (s : GoString) (i : Nat), (∀ b ∈ s, b < 0x80) →
    (rangeFrom s 0 i).map Prod.snd = s := by
  intro s
  induction s with
  | nil => intro _ _; rfl
  | cons b bs ih =>
    intro i h
    have hb : b < 0x80 := h b (by simp)
    simp only [rangeFrom, decodeRune_ascii b bs hb, List.map_cons, Nat.sub_self]
    rw [ih (i + 1) (fun x hx => h x (by simp [hx]))]

theorem titleRunes_ascii : ∀ (s : GoString) (prev : Nat), (∀ b ∈ s, b < 0x80) →
    (titleRunes asciiSeparator asciiUpperByte prev s).flatMap runeString =
      asciiTitleFrom prev s := by
  intro s
  induction s with
  | nil => intro _ _; rfl
  | cons b bs ih =>
    intro prev h
    have hb : b < 0x80 := h b (by simp)
    have hu : asciiUpperByte b < 0x80 := by
      unfold asciiUpperByte
      split_ifs <;> omega
    simp only [titleRunes, asciiTitleFrom, List.flatMap_cons,
      ih b (fun x hx => h x (by simp [hx]))]
    split_ifs
    · simp [runeString, hu]
    · simp [runeString, hb]

/-- On ASCII text the rune-by-rune `Title` is the byte-wise one of `asciiStrings`. -/
theorem mapTitle_ascii (s : GoString) (h : ∀ b ∈ s, b < 0x80) :
    mapTitle asciiSeparator asciiUpperByte s = asciiStrings.Title s := by
  unfold mapTitle rangeString
  rw [rangeFrom_ascii s 0 h, titleRunes_ascii s 0x20 h]
  rfl

/-- C11: for a sentence whose trimmed form is `body` followed by a last byte `e`,
with `w0 :: ws` the pieces of `body` between single spaces, the sentence sent
back is `c0`, then a space and the translation of each further piece, then `e`:
the number of pieces is kept, and `c0` is `Title` of the translation `t0` of
`w0`. With `Title` the rune-by-rune map of package `strings`, `c0` is `t0` up to
letter case: it encodes the runes of `t0`, each one kept or replaced by its
title case. -/
theorem sentenceHandler_shape (L : GoStrings) (isSeparator : Nat → Bool)
    (ToTitle : Nat → Nat) (file : Option GoString) (sentence : GoString)
    (hne : (L.TrimSpace sentence).length ≠ 0)
    (hTitle : ∀ x, L.Title x = mapTitle isSeparator ToTitle x) :
    ∃ (body : GoString) (e : Nat) (w0 : GoString) (ws : List GoString)
      (t0 : GoString) (ts : List GoString) (c0 : GoString) (runes : List Nat),
      L.TrimSpace sentence = body ++ [e] ∧
      Split body (lit " ") = w0 :: ws ∧
      translate L w0 = .ok t0 ∧
      List.Forall₂ (fun w t => translate L w = .ok t) ws ts ∧
      c0 = L.Title t0 ∧
      c0 = runes.flatMap runeString ∧
      List.Forall₂ (fun r c => c = r ∨ c = ToTitle r)
        ((rangeString t0).map Prod.snd) runes ∧
      (c0 :: ts).length = (w0 :: ws).length ∧
      (sentenceHandler L file sentence).map Prod.fst =
        .ok (List.intercalate (lit " ") (c0 :: ts) ++ [e]) := by
  obtain ⟨body, e, w0, ws, t0, ts, h1, h2, h3, h4, h5⟩ :=
    sentenceHandler_response L file sentence hne
  refine ⟨body, e, w0, ws, t0, ts, L.Title t0,
    titleRunes isSeparator ToTitle 0x20 ((rangeString t0).map Prod.snd),
    h1, h2, h3, h4, rfl, ?_, titleRunes_forall₂ isSeparator ToTitle _ _, ?_, ?_⟩
  · rw [hTitle t0]
    rfl
  · simp [h4.length_eq]
  · rw [h5, Join_eq_intercalate]

theorem sentenceHandler_shape_witness :
    ∃ (body : GoString) (e : Nat) (w0 : GoString) (ws : List GoString)
      (t0 : GoString) (ts : List GoString) (c0 : GoString) (runes : List Nat),
      asciiMapStrings.TrimSpace (lit " See the cat! ") = body ++ [e] ∧
      Split body (lit " ") = w0 :: ws ∧
      translate asciiMapStrings w0 = .ok t0 ∧
      List.Forall₂ (fun w t => translate asciiMapStrings w = .ok t) ws ts ∧
      c0 = asciiMapStrings.Title t0 ∧
      c0 = runes.flatMap runeString ∧
      List.Forall₂ (fun r c => c = r ∨ c = asciiUpperByte r)
        ((rangeString t0).map Prod.snd) runes ∧
      (c0 :: ts).length = (w0 :: ws).length ∧
      (sentenceHandler asciiMapStrings none (lit " See the cat! ")).map Prod.fst =
        .ok (List.intercalate (lit " ") (c0 :: ts) ++ [e]) :=
  sentenceHandler_shape asciiMapStrings asciiSeparator asciiUpperByte none
    (lit " See the cat! ") (by decide) (fun _ => rfl)

/-- The rune-by-rune `Title` gives the same sentences as the byte-wise one on
"See the cat!" and on "Hello, world.". -/
theorem sentenceHandler_mapTitle_example :
    (sentenceHandler asciiMapStrings none (lit " See the cat! ")).map Prod.fst =
      .ok (lit "Eesogo ethogo atcogo!") ∧
    (sentenceHandler asciiMapStrings none (lit "Hello, world.")).map Prod.fst =
      .ok (lit "Ello,Hogo orldwogo.") := by
  decide

/-- The sentence " See  the cat! ", with two spaces after the first word, comes
back with an empty piece kept between the two spaces. -/
theorem sentenceHandler_example :
    (sentenceHandler asciiStrings none (lit " See  the cat! ")).map Prod.fst =
      .ok (lit "Eesogo  ethogo atcogo!") := by
  decide

end Translator
